import Mathlib

/-!
Verification of the memdb in-memory indexed table.

The main table (composite-key index, change tracking, serialization) is
embedded from the `Table`/`Row` classes of the primary source file; the
secondary-index table (`upsert`/`save`, unique and non-unique indexes) is
embedded from `src/index.mjs`.  JavaScript `Map`s and `Set`s are modelled
as association lists and lists kept in insertion order; row objects are
modelled as a heap of association lists addressed by numeric identity.
-/

namespace MemDB

/-- JavaScript primitive values that can live in a column: numbers,
strings, and `undefined` (the value of an absent property). -/
inductive Value where
  | num (n : Int)
  | str (s : String)
  | undefined
deriving DecidableEq, Repr

/-- Whether a value is a number. -/
def Value.isNum : Value → Bool
  | .num _ => true
  | _ => false

/-- Whether a value is a string. -/
def Value.isStr : Value → Bool
  | .str _ => true
  | _ => false

/-- The natural number denoted by a list of decimal digit characters. -/
def digitsToNat (cs : List Char) : Nat :=
  cs.foldl (fun acc c => acc * 10 + (c.toNat - '0'.toNat)) 0

/-- JS `ToNumber` on strings, restricted to the integer value model:
leading and trailing whitespace is trimmed, the empty string is 0, and an
optional sign followed by decimal digits parses as an integer.  Numeric
forms with no integer value (fractions, exponents, hex) are
conservatively NaN (`none`), as is every non-numeric string. -/
def strToNum (s : String) : Option Int :=
  let cs := ((s.toList.dropWhile Char.isWhitespace).reverse.dropWhile
    Char.isWhitespace).reverse
  match cs with
  | [] => some 0
  | '-' :: rest =>
    if !rest.isEmpty && rest.all Char.isDigit then
      some (-(digitsToNat rest : Int))
    else none
  | '+' :: rest =>
    if !rest.isEmpty && rest.all Char.isDigit then
      some ((digitsToNat rest : Int))
    else none
  | _ =>
    if cs.all Char.isDigit then some ((digitsToNat cs : Int)) else none

/-- JS `ToNumber`: numbers are themselves, strings go through `strToNum`,
`undefined` is NaN. -/
def Value.toNum : Value → Option Int
  | .num n => some n
  | .str s => strToNum s
  | .undefined => none

/-- The JS `<` operator on primitive values: string/string compares
lexicographically, otherwise both sides go through `ToNumber` and any NaN
makes the comparison false. -/
def jsLt : Value → Value → Bool
  | .str a, .str b => decide (a < b)
  | a, b =>
    match a.toNum, b.toNum with
    | some m, some n => decide (m < n)
    | _, _ => false

/-- A plain JS object (or a `Row`'s own enumerable fields): an association
list of property name to value, in property insertion order. -/
abbrev Obj := List (String × Value)

/-- Association-list lookup (first match), used for JS object property
reads and `Map.get`. -/
def lkp {α β : Type} [DecidableEq α] : List (α × β) → α → Option β
  | [], _ => none
  | (a, b) :: rest, x => if a = x then some b else lkp rest x

/-- Replace the binding for a key in place, or append it at the end:
JS property assignment on an existing object and `Map.set`. -/
def setPair {α β : Type} [DecidableEq α] : List (α × β) → α → β → List (α × β)
  | [], k, v => [(k, v)]
  | (a, b) :: rest, k, v =>
    if a = k then (k, v) :: rest else (a, b) :: setPair rest k v

/-- Remove the binding for a key: JS `Map.delete`. -/
def erasePair {α β : Type} [DecidableEq α] : List (α × β) → α → List (α × β)
  | [], _ => []
  | (a, b) :: rest, k => if a = k then rest else (a, b) :: erasePair rest k

/-- JS property read `o[k]`: `undefined` when the property is absent. -/
def objGet (o : Obj) (k : String) : Value := (lkp o k).getD .undefined

/-- JS `k in o`: whether the property is present (even if `undefined`). -/
def hasKey (o : Obj) (k : String) : Bool := (lkp o k).isSome

/-- The property names of an object, in order. -/
def objKeys (o : Obj) : List String := o.map Prod.fst

/-- JS object spread `\x7b ...a, ...b \x7d`: the properties of `a`
overridden or extended by those of `b`, in order. -/
def spreadMerge (a b : Obj) : Obj := b.foldl (fun o kv => setPair o kv.1 kv.2) a

/-- Deep equality of two plain objects of primitive values (the
`@ludlovian/equal` check used by `Table.update`): same property sets,
same values. -/
def objEqb (a b : Obj) : Bool :=
  (objKeys a).all (hasKey b) && (objKeys b).all (hasKey a) &&
    (objKeys a).all (fun k => objGet a k == objGet b k)

/-- JS `Set.add` on a set kept as a list in insertion order. -/
def addSet (l : List Nat) (x : Nat) : List Nat := if x ∈ l then l else l ++ [x]

/-- A node of the composite-key index: nested `Map`s, one level per key
column, whose final level maps the last key value to a row. -/
inductive Node where
  | row (rid : Nat)
  | map (es : List (Value × Node))

/-- Errors thrown by the table (the `assert` failures and the JS
`TypeError` raised by assigning a read-only or new property of a row). -/
inductive TErr where
  | missingKey (col : String)
  | duplicateKey
  | notCurrent
  | typeError
deriving DecidableEq, Repr

deriving instance DecidableEq for Except

/-- `Table.#addToIndex`, as a function of the row's key-value path: walk
the key values, creating intermediate levels lazily, and fail with
`Duplicate key` if the final level is occupied.  A failure can only occur
when every level of the path already existed, so the failing case returns
with no level created, exactly as in the source. -/
def insT (rid : Nat) : List Value → Node → Except TErr Node
  | [], ix => .ok ix
  | [v], ix =>
    match ix with
    | .map es =>
      if (lkp es v).isSome then .error .duplicateKey
      else .ok (.map (es ++ [(v, .row rid)]))
    | .row _ => .ok ix
  | v :: v' :: vs, ix =>
    match ix with
    | .map es =>
      match insT rid (v' :: vs) ((lkp es v).getD (.map [])) with
      | .ok c => .ok (.map (setPair es v c))
      | .error e => .error e
    | .row _ => .ok ix

/-- `Table.#removeFromIndex` as a function of the row's key-value path:
walk to the final level and delete the entry; a missing intermediate
level ends the walk.  Empty intermediate levels are not pruned. -/
def remT : List Value → Node → Node
  | [], ix => ix
  | [v], ix =>
    match ix with
    | .map es => .map (erasePair es v)
    | .row _ => ix
  | v :: v' :: vs, ix =>
    match ix with
    | .map es =>
      match lkp es v with
      | none => .map es
      | some c => .map (setPair es v (remT (v' :: vs) c))
    | .row _ => ix

/-- The row reachable through the index at a full key path, if any. -/
def reachT : List Value → Node → Option Nat
  | [], _ => none
  | [v], ix =>
    match ix with
    | .map es =>
      match lkp es v with
      | some (.row r) => some r
      | _ => none
    | .row _ => none
  | v :: v' :: vs, ix =>
    match ix with
    | .map es =>
      match lkp es v with
      | some c => reachT (v' :: vs) c
      | _ => none
    | .row _ => none

/-- Whether a trie node is well formed at the given remaining depth: at
depth 1 every entry is a row, deeper levels hold well-formed children,
and the keys at each level are distinct (as `Map` keys are). -/
def wfT : Nat → Node → Bool
  | 1, .map es =>
    es.all (fun p => match p.2 with | .row _ => true | .map _ => false) &&
      decide (es.map Prod.fst).Nodup
  | d + 2, .map es =>
    es.all (fun p => wfT (d + 1) p.2) && decide (es.map Prod.fst).Nodup
  | _, _ => false

/-- All full-depth (path, row) entries reachable through a trie node. -/
def entriesT : Nat → Node → List (List Value × Nat)
  | 1, .map es =>
    es.foldr
      (fun p acc =>
        match p.2 with
        | .row r => ([p.1], r) :: acc
        | .map _ => acc) []
  | d + 2, .map es =>
    es.foldr
      (fun p acc => ((entriesT (d + 1) p.2).map fun q => (p.1 :: q.1, q.2)) ++ acc)
      []
  | _, _ => []

/-- The key-value path of an object: its values at the key columns, in
declared key order. -/
def pth (key : List String) (o : Obj) : List Value := key.map (objGet o)

/-- The in-memory table.  The schema (`#columns` as an ordered column
name to type name map, and `#key`) is taken already parsed and validated;
JS `Set`s are lists in insertion order; `Row` objects live in `heap`,
addressed by a numeric identity drawn from `nextId`. -/
structure Table where
  colTy : List (String × String)
  key : List String
  heap : List (Nat × Obj)
  nextId : Nat
  all : List Nat
  index : Node
  untouched : List Nat
  added : List Nat
  changed : List Nat
  deleted : List Nat
  needSort : Bool

/-- The declared column names, in order (`get cols`). -/
def Table.cols (t : Table) : List String := t.colTy.map Prod.fst

/-- The own enumerable fields of the row with the given identity. -/
def heapObj (t : Table) (rid : Nat) : Obj := (lkp t.heap rid).getD []

/-- `Table.resetChanges`: `untouched` becomes a copy of the live set, the
other three buckets are emptied. -/
def Table.resetChanges (t : Table) : Table :=
  { t with untouched := t.all, added := [], changed := [], deleted := [] }

/-- `Table.clear`: fresh live set and index, then reset change tracking.
Old `Row` objects survive in the heap, as JS objects do. -/
def Table.clear (t : Table) : Table :=
  Table.resetChanges { t with all := [], index := .map [] }

/-- A fresh table over a parsed schema (the constructor after
`#parseColumns`/`#parseKey`; `#needSort` starts out falsy). -/
def mkTable (colTy : List (String × String)) (key : List String) : Table :=
  Table.clear
    { colTy := colTy, key := key, heap := [], nextId := 0, all := [],
      index := .map [], untouched := [], added := [], changed := [],
      deleted := [], needSort := false }

/-- `Table.add`: construct the `Row` (which fails on a missing key column
before anything is mutated), insert it into the live set and the `added`
bucket, and only then into the composite index — so a duplicate-key
failure is raised after the live set and `added` have already been
mutated, and before `#needSort` is set. -/
def Table.add (t : Table) (data : Obj) : Table × Except TErr Nat :=
  match t.key.find? (fun c => !hasKey data c) with
  | some c => (t, .error (.missingKey c))
  | none =>
    let obj : Obj := t.cols.map fun c => (c, objGet data c)
    let rid := t.nextId
    let t1 : Table :=
      { t with heap := t.heap ++ [(rid, obj)], nextId := rid + 1,
               all := addSet t.all rid, added := addSet t.added rid }
    match insT rid (pth t.key obj) t1.index with
    | .ok ix => ({ t1 with index := ix, needSort := true }, .ok rid)
    | .error e => (t1, .error e)

/-- `Object.assign(row, data)`: apply the entries of `data` in order; a
write to a read-only key field, or to a property the sealed row does not
have, raises `TypeError` with the earlier writes already applied. -/
def assignRow (key : List String) : Obj → Obj → Obj × Bool
  | obj, [] => (obj, false)
  | obj, (k, v) :: rest =>
    if hasKey obj k then
      if k ∈ key then (obj, true)
      else assignRow key (setPair obj k v) rest
    else (obj, true)

/-- `Table.update`: reject a non-current row; return unchanged when the
merged values deep-equal the current ones; otherwise assign the data and
move the row out of `untouched` into `changed` unless it is in `added`.
A `TypeError` from the assignment leaves the buckets untouched. -/
def Table.update (t : Table) (rid : Nat) (data : Obj) : Table × Except TErr Unit :=
  if rid ∈ t.all then
    let obj := heapObj t rid
    if objEqb obj (spreadMerge obj data) then (t, .ok ())
    else
      let ass := assignRow t.key obj data
      let t1 : Table := { t with heap := setPair t.heap rid ass.1 }
      if ass.2 then (t1, .error .typeError)
      else
        ({ t1 with untouched := t1.untouched.erase rid,
                   changed := if rid ∈ t1.added then t1.changed
                              else addSet t1.changed rid }, .ok ())
  else (t, .error .notCurrent)

/-- `Table.delete`: reject a non-current row; otherwise drop it from the
live set and the three live buckets, record it in `deleted`, and remove
its entry from the composite index. -/
def Table.delete_ (t : Table) (rid : Nat) : Table × Except TErr Unit :=
  if rid ∈ t.all then
    let t1 : Table :=
      { t with all := t.all.erase rid,
               deleted := addSet t.deleted rid,
               added := t.added.erase rid,
               changed := t.changed.erase rid,
               untouched := t.untouched.erase rid }
    ({ t1 with index := remT (pth t.key (heapObj t rid)) t1.index }, .ok ())
  else (t, .error .notCurrent)

/-- `Table.#seek`: walk the key columns over the supplied key data,
asserting each column is supplied as it is reached; a missing
intermediate index level ends the walk with the row still null, so later
columns are never checked. -/
def seekT : List String → Obj → Node → Except TErr (Option Nat)
  | [], _, _ => .ok none
  | [c], kd, ix =>
    if hasKey kd c then
      match ix with
      | .map es =>
        .ok (match lkp es (objGet kd c) with
             | some (.row r) => some r
             | _ => none)
      | .row _ => .ok none
    else .error (.missingKey c)
  | c :: c' :: rest, kd, ix =>
    if hasKey kd c then
      match ix with
      | .map es =>
        match lkp es (objGet kd c) with
        | some child => seekT (c' :: rest) kd child
        | none => .ok none
      | .row _ => .ok none
    else .error (.missingKey c)

/-- `Table.find`: a full composite-key lookup through `#seek`. -/
def Table.find (t : Table) (kd : Obj) : Except TErr (Option Nat) :=
  seekT t.key kd t.index

/-- `Table.get`: `find`, adding a new row from the key data when the row
is absent. -/
def Table.get_ (t : Table) (kd : Obj) : Table × Except TErr Nat :=
  match t.find kd with
  | .error e => (t, .error e)
  | .ok (some r) => (t, .ok r)
  | .ok none => t.add kd

/-- `Table.#makeSortFn`: a three-way comparison of two rows over the key
columns in declared order, the first column on which JS `<` or `>` holds
deciding. -/
def rowCmp : List String → Obj → Obj → Ordering
  | [], _, _ => .eq
  | c :: rest, a, b =>
    if jsLt (objGet a c) (objGet b c) then .lt
    else if jsLt (objGet b c) (objGet a c) then .gt
    else rowCmp rest a b

/-- The "not greater" relation induced by the sort comparator, on row
identities of a given table. -/
def rowLeB (t : Table) (x y : Nat) : Bool :=
  rowCmp t.key (heapObj t x) (heapObj t y) != .gt

/-- The `data` getter: when `#needSort` is set, replace the live set by a
stable sort of its rows under the key comparator and clear the flag;
return the live rows in order. -/
def Table.getData (t : Table) : List Nat × Table :=
  if t.needSort then
    let sorted := List.insertionSort (fun x y => rowLeB t x y = true) t.all
    (sorted, { t with all := sorted, needSort := false })
  else (t.all, t)

/-- A registered type's optional serialize and deserialize hooks. -/
abbrev Hooks := Option (Value → Value) × Option (Value → Value)

/-- The type registry `Table.#types`: type name to hooks.  The `default`
type is the absent-hooks entry, which `regGet` also yields for any name
not present. -/
abbrev Reg := List (String × Hooks)

/-- Look a type name up in the registry. -/
def regGet (reg : Reg) (ty : String) : Hooks := (lkp reg ty).getD (none, none)

/-- Apply a column type's serialize hook, or the identity. -/
def serVal (reg : Reg) (ty : String) (v : Value) : Value :=
  match (regGet reg ty).1 with
  | some f => f v
  | none => v

/-- Apply a column type's deserialize hook, or the identity. -/
def deserVal (reg : Reg) (ty : String) (v : Value) : Value :=
  match (regGet reg ty).2 with
  | some f => f v
  | none => v

/-- `Table.#serialize` of one row: each declared column through its
type's serialize hook, in declared order. -/
def serObj (reg : Reg) (colTy : List (String × String)) (o : Obj) : Obj :=
  colTy.map fun ct => (ct.1, serVal reg ct.2 (objGet o ct.1))

/-- `Table.#deserialize` of one record: each declared column through its
type's deserialize hook, in declared order. -/
def deserObj (reg : Reg) (colTy : List (String × String)) (o : Obj) : Obj :=
  colTy.map fun ct => (ct.1, deserVal reg ct.2 (objGet o ct.1))

/-- `Table.serialize`: the sorted live rows, each serialized column by
column. -/
def Table.serialize (t : Table) (reg : Reg) : List Obj × Table :=
  let d := t.getData
  (d.1.map fun rid => serObj reg t.colTy (heapObj d.2 rid), d.2)

/-- `Table.load`: clear, add each deserialized record, then reset change
tracking.  A failing add propagates; the `Except` result models the
successful completion, which is all the specification speaks about. -/
def Table.load (t : Table) (objs : List Obj) (reg : Reg) : Except TErr Table := do
  let t0 := t.clear
  let tfin ← objs.foldlM
    (fun acc obj =>
      let st := acc.add (deserObj reg acc.colTy obj)
      match st.2 with
      | .ok _ => pure st.1
      | .error e => throw e) t0
  pure tfin.resetChanges

/-- One table operation, as issued by a caller.  `Row.set`/`Row.delete`
delegate to `Table.update`/`Table.delete`, and `load` is `clear` followed
by `add`s and `resetChanges`, so these cover every mutation path. -/
inductive Op where
  | add (data : Obj)
  | update (rid : Nat) (data : Obj)
  | delete_ (rid : Nat)
  | get_ (data : Obj)
  | readData
  | resetChanges
  | clear

/-- Apply one operation, keeping the table state it leaves behind whether
or not the operation threw. -/
def applyOp (t : Table) : Op → Table
  | .add d => (t.add d).1
  | .update rid d => (t.update rid d).1
  | .delete_ rid => (t.delete_ rid).1
  | .get_ d => (t.get_ d).1
  | .readData => t.getData.2
  | .resetChanges => t.resetChanges
  | .clear => t.clear

/-- Apply a sequence of operations in order. -/
def applyOps (t : Table) : List Op → Table
  | [] => t
  | op :: rest => applyOps (applyOp t op) rest

/-- Basic well-formedness of the row heap: identities are distinct and
below `nextId`, and every live row has a heap entry. -/
def HeapWf (t : Table) : Prop :=
  (t.heap.map Prod.fst).Nodup ∧
    (∀ i ∈ t.heap.map Prod.fst, i < t.nextId) ∧
    ∀ i ∈ t.all, i ∈ t.heap.map Prod.fst

/-- The table's internal consistency: a valid parsed schema, a sound
heap, live rows that carry exactly the declared columns, and a
well-formed composite index whose reachable entries are exactly the live
rows at their own (pairwise distinct) key paths. -/
structure Inv (t : Table) : Prop where
  colsNodup : t.cols.Nodup
  keyNe : t.key ≠ []
  keySub : ∀ c ∈ t.key, c ∈ t.cols
  heapNodup : (t.heap.map Prod.fst).Nodup
  heapBound : ∀ i ∈ t.heap.map Prod.fst, i < t.nextId
  allSub : ∀ i ∈ t.all, i ∈ t.heap.map Prod.fst
  allNodup : t.all.Nodup
  canon : ∀ rid ∈ t.all,
    heapObj t rid = t.cols.map fun c => (c, objGet (heapObj t rid) c)
  wf : wfT t.key.length t.index = true
  entries : (entriesT t.key.length t.index).Perm
    (t.all.map fun rid => (pth t.key (heapObj t rid), rid))
  pathsNodup : (t.all.map fun rid => pth t.key (heapObj t rid)).Nodup

/-- The example schema of the specification: columns `k1, k2, foo` with
key `k1, k2`, all of the default type. -/
def exCT : List (String × String) :=
  [("k1", "default"), ("k2", "default"), ("foo", "default")]

/-- The example key columns. -/
def exKey : List String := ["k1", "k2"]

/-- A fresh example table. -/
def exT0 : Table := mkTable exCT exKey

/-- Insert (2,2,'bar'). -/
def exAddA : Table × Except TErr Nat :=
  exT0.add [("k1", .num 2), ("k2", .num 2), ("foo", .str "bar")]

/-- Then insert (1,2,'baz'). -/
def exAddB : Table × Except TErr Nat :=
  exAddA.1.add [("k1", .num 1), ("k2", .num 2), ("foo", .str "baz")]

/-- Then insert (2,3,'boz'). -/
def exAddC : Table × Except TErr Nat :=
  exAddB.1.add [("k1", .num 2), ("k2", .num 3), ("foo", .str "boz")]

/-- The example table holding (2,2,'bar'), (1,2,'baz'), (2,3,'boz') as
rows 0, 1, 2. -/
def exT3 : Table := exAddC.1

/-- An `add` whose full composite key (2,2) duplicates row 0's. -/
def dupAdd : Table × Except TErr Nat :=
  exT3.add [("k1", .num 2), ("k2", .num 2), ("foo", .str "dup")]

/-- The example table with change tracking reset, so rows 0,1,2 sit in
`untouched`. -/
def c3T : Table := exT3.resetChanges

/-- A one-record load used to exercise `load` concretely. -/
def c8Load : Except TErr Table :=
  exT0.load [[("k1", .num 1), ("k2", .num 1), ("foo", .str "x")]] []

/-- The table produced by the one-record load. -/
def c8T : Table :=
  match c8Load with
  | .ok t => t
  | .error _ => exT0

/-- A single-key-column schema whose key values mix numbers and
strings. -/
def mixCT : List (String × String) := [("k", "default"), ("foo", "default")]

/-- The mixed-value table: key values 5, then 'x', then 3, in that
insertion order.  JS `<` relates none of the adjacent pairs (comparisons
against the NaN of a non-numeric string are false), so the stable sort
leaves them in insertion order. -/
def mixT : Table :=
  (((mkTable mixCT ["k"]).add [("k", .num 5), ("foo", .str "a")]).1.add
      [("k", .str "x"), ("foo", .str "b")]).1.add
    [("k", .num 3), ("foo", .str "c")] |>.1

end MemDB

namespace SecDB

open MemDB (Value Obj lkp setPair erasePair objGet spreadMerge addSet)

/-- A secondary index: the derived-key function together with its map —
derived key to single row for a unique index, derived key to a set of
rows for a non-unique one. -/
inductive SIx where
  | uniq (fn : Obj → Value) (map : List (Value × Nat))
  | multi (fn : Obj → Value) (map : List (Value × List Nat))

/-- Errors of the secondary-index table: `KeyViolation` carries the row
being added; `typeError` stands for the JS crash of deleting a row from a
non-unique index bucket that does not exist. -/
inductive SErr where
  | keyViolation (rid : Nat)
  | typeError
  | noSuchIndex

/-- `Index.add` / `UniqueIndex.add`: a unique index fails with
`KeyViolation` when the derived key is already present (whatever row it
maps to); a non-unique index appends the row to the key's set, creating
it when absent. -/
def ixAdd (obj : Obj) (rid : Nat) : SIx → Except SErr SIx
  | .uniq fn m =>
    let k := fn obj
    if (lkp m k).isSome then .error (.keyViolation rid)
    else .ok (.uniq fn (setPair m k rid))
  | .multi fn m =>
    let k := fn obj
    match lkp m k with
    | some entry => .ok (.multi fn (setPair m k (addSet entry rid)))
    | none => .ok (.multi fn (setPair m k [rid]))

/-- `Index.delete` / `UniqueIndex.delete`: a unique index drops the
derived key unconditionally; a non-unique one removes the row from the
key's set, dropping the key when the set empties (and crashes when the
key has no set at all, as the JS does). -/
def ixDelete (obj : Obj) (rid : Nat) : SIx → Except SErr SIx
  | .uniq fn m => .ok (.uniq fn (erasePair m (fn obj)))
  | .multi fn m =>
    let k := fn obj
    match lkp m k with
    | some entry =>
      let entry := entry.erase rid
      if entry.isEmpty then .ok (.multi fn (erasePair m k))
      else .ok (.multi fn (setPair m k entry))
    | none => .error .typeError

/-- `Index.get` / `UniqueIndex.get`: apply the derived-key function to
the query data; a unique index yields the single row or absence, a
non-unique one the (possibly empty) set of rows. -/
def ixGet (data : Obj) : SIx → Option Nat ⊕ List Nat
  | .uniq fn m => .inl (lkp m (fn data))
  | .multi fn m => .inr ((lkp m (fn data)).getD [])

/-- The secondary-index table of `src/index.mjs`: live rows `_data`,
change-tracking sets `_changed`/`_deleted`, and named indexes `_ix`.
Rows are plain objects in a heap addressed by numeric identity. -/
structure STable where
  heap : List (Nat × Obj)
  nextId : Nat
  data_ : List Nat
  changed : List Nat
  deleted : List Nat
  ix : List (String × SIx)

/-- The fields of a row of the secondary-index table. -/
def sObj (t : STable) (rid : Nat) : Obj := (lkp t.heap rid).getD []

/-- Add a row to every index in declaration order, stopping at the first
failure.  On failure the JS table keeps the earlier indexes' updates; the
`Except` result models the successful completion, which is all the
claims speak about. -/
def addToAll (obj : Obj) (rid : Nat) :
    List (String × SIx) → Except SErr (List (String × SIx))
  | [] => .ok []
  | (k, i) :: rest => do
    let i' ← ixAdd obj rid i
    let rest' ← addToAll obj rid rest
    pure ((k, i') :: rest')

/-- Delete a row from every index in declaration order. -/
def delFromAll (obj : Obj) (rid : Nat) :
    List (String × SIx) → Except SErr (List (String × SIx))
  | [] => .ok []
  | (k, i) :: rest => do
    let i' ← ixDelete obj rid i
    let rest' ← delFromAll obj rid rest
    pure ((k, i') :: rest')

/-- The `main`-index row lookup that opens `upsert`: `this._ix.main &&
this._ix.main.get(data)`.  Modelled for the supported shape of a unique
(or absent) `main` index, the one the constructor installs. -/
def mainLookup (t : STable) (data : Obj) : Option Nat :=
  match lkp t.ix "main" with
  | some (.uniq fn m) => lkp m (fn data)
  | some (.multi _ _) => none
  | none => none

/-- `Table.upsert` on a single record: update the row found through the
`main` index — remove it from every index, assign the data, re-add it —
or create a fresh row; either way the resulting row is added to
`_changed`, with no check that the assigned values differ. -/
def upsert (t : STable) (data : Obj) : Except SErr (Nat × STable) :=
  match mainLookup t data with
  | some rid => do
    let obj := sObj t rid
    let ix1 ← delFromAll obj rid t.ix
    let obj' := spreadMerge obj data
    let ix2 ← addToAll obj' rid ix1
    pure (rid, { t with heap := setPair t.heap rid obj', ix := ix2,
                        changed := addSet t.changed rid })
  | none => do
    let rid := t.nextId
    let obj' := spreadMerge [] data
    let ix2 ← addToAll obj' rid t.ix
    pure (rid, { t with heap := t.heap ++ [(rid, obj')], nextId := rid + 1,
                        data_ := addSet t.data_ rid, ix := ix2,
                        changed := addSet t.changed rid })

/-- `Table.delete` on a single record: resolve through `main`; when a row
is found, remove it from every index, the live set and `_changed`, and
record it in `_deleted`. -/
def sdelete (t : STable) (data : Obj) : Except SErr (Option Nat × STable) :=
  match mainLookup t data with
  | some rid => do
    let obj := sObj t rid
    let ix1 ← delFromAll obj rid t.ix
    pure (some rid,
      { t with ix := ix1, data_ := t.data_.erase rid,
               changed := t.changed.erase rid,
               deleted := addSet t.deleted rid })
  | none => .ok (none, t)

/-- `Table.save`: snapshot `_changed` and `_deleted`, clear both, and
hand the snapshots to `onsave`.  The returned pair is what `onsave`
receives. -/
def save (t : STable) : (List Nat × List Nat) × STable :=
  ((t.changed, t.deleted), { t with changed := [], deleted := [] })

end SecDB

namespace SecDB

open MemDB (Value Obj objGet)

/-- The derived-key function of the example `main` index: the `id`
field. -/
def sFn : Obj → Value := fun o => objGet o "id"

/-- An empty secondary-index table with a unique `main` index on `id`. -/
def sT0 : STable :=
  { heap := [], nextId := 0, data_ := [], changed := [], deleted := [],
    ix := [("main", .uniq sFn [])] }

/-- The example record. -/
def sD : Obj := [("id", .num 1), ("foo", .str "bar")]

/-- First upsert of the record (an insert). -/
def sU1 : Except SErr (Nat × STable) := upsert sT0 sD

/-- The table after the first upsert. -/
def sT1 : STable :=
  match sU1 with
  | .ok p => p.2
  | .error _ => sT0

/-- Second upsert of the identical record (a value-identical update). -/
def sU2 : Except SErr (Nat × STable) := upsert sT1 sD

/-- The table after the second upsert. -/
def sT2 : STable :=
  match sU2 with
  | .ok p => p.2
  | .error _ => sT0

/-- A derived-key function on the `foo` field. -/
def c7fn : Obj → Value := fun o => objGet o "foo"

/-- A row with foo='bar', carried by the unique index as row 5. -/
def c7row : Obj := [("id", .num 1), ("foo", .str "bar")]

/-- A unique-index map already holding row 5 under key 'bar'. -/
def c7M : List (Value × Nat) := [(.str "bar", 5)]

end SecDB

namespace MemDB

/-- C1: adding a row whose full composite key (2,2) is already live
fails with the duplicate-key error, but the table is NOT left unchanged:
the rejected row (identity 3) remains in the live set and in the `added`
bucket, while the composite index is unchanged — `Table.add` mutates
`#all` and `#added` before `#addToIndex` performs the duplicate check. -/
theorem c1_duplicate_add_leaves_partial_state :
    dupAdd.2 = .error .duplicateKey ∧
    exT3.all = [0, 1, 2] ∧ dupAdd.1.all = [0, 1, 2, 3] ∧
    exT3.added = [0, 1, 2] ∧ dupAdd.1.added = [0, 1, 2, 3] ∧
    entriesT 2 dupAdd.1.index = entriesT 2 exT3.index := by
  decide

/-- C2: after the sequence add(2,2,'bar'), add(1,2,'baz'), add(2,3,'boz'),
add(2,2,'dup') — the last call failing with the duplicate-key error — the
rows reachable through the composite index are 0, 1, 2, while the live
row set also contains the phantom row 3, so the two differ. -/
theorem c2_reachable_rows_diverge_from_live_set :
    dupAdd.2 = .error .duplicateKey ∧
    3 ∈ dupAdd.1.all ∧
    3 ∉ (entriesT 2 dupAdd.1.index).map Prod.snd := by
  decide

theorem lkp_setPair_self {α β : Type} [DecidableEq α]
    (l : List (α × β)) (k : α) (v : β) : lkp (setPair l k v) k = some v := by
  induction l with
  | nil => simp [setPair, lkp]
  | cons p rest ih =>
    by_cases h : p.1 = k
    · simp [setPair, h, lkp]
    · simp [setPair, h, lkp, ih]

theorem lkp_setPair_ne {α β : Type} [DecidableEq α]
    (l : List (α × β)) (k k' : α) (v : β) (h : k ≠ k') :
    lkp (setPair l k v) k' = lkp l k' := by
  induction l with
  | nil => simp [setPair, lkp, h]
  | cons p rest ih =>
    by_cases hp : p.1 = k
    · simp [setPair, hp, lkp, h]
    · simp [setPair, hp, lkp, ih]

theorem objGet_setPair_ne (o : Obj) (k c : String) (v : Value) (h : k ≠ c) :
    objGet (setPair o k v) c = objGet o c := by
  simp [objGet, lkp_setPair_ne o k c v h]

theorem hasKey_setPair_of (o : Obj) (k c : String) (v : Value)
    (h : hasKey o c = true) : hasKey (setPair o k v) c = true := by
  by_cases hk : k = c
  · subst hk; simp [hasKey, lkp_setPair_self]
  · simpa [hasKey, lkp_setPair_ne o k c v hk] using h

theorem mem_addSet_self (l : List Nat) (x : Nat) : x ∈ addSet l x := by
  by_cases h : x ∈ l <;> simp [addSet, h]

theorem mem_addSet_of_mem (l : List Nat) (x y : Nat) (h : y ∈ l) :
    y ∈ addSet l x := by
  by_cases hx : x ∈ l <;> simp [addSet, hx, h]

theorem assignRow_keeps_key_fields (key : List String) :
    ∀ (data o : Obj) (c : String), c ∈ key →
      objGet (assignRow key o data).1 c = objGet o c := by
  intro data
  induction data with
  | nil => intro o c _; simp [assignRow]
  | cons p rest ih =>
    intro o c hc
    by_cases hk : hasKey o p.1
    · by_cases hmem : p.1 ∈ key
      · simp [assignRow, hk, hmem]
      · have hne : p.1 ≠ c := fun h => hmem (h ▸ hc)
        simp only [assignRow, hk, if_true, hmem, if_false]
        rw [ih (setPair o p.1 p.2) c hc, objGet_setPair_ne o p.1 c p.2 hne]
    · simp [assignRow, hk]

theorem assignRow_no_fault (key : List String) :
    ∀ (data o : Obj),
      (∀ p ∈ data, hasKey o p.1 = true ∧ p.1 ∉ key) →
      (assignRow key o data).2 = false := by
  intro data
  induction data with
  | nil => intro o _; simp [assignRow]
  | cons p rest ih =>
    intro o hd
    obtain ⟨hk, hmem⟩ := hd p (by simp)
    simp only [assignRow, hk, if_true, hmem, if_false]
    exact ih (setPair o p.1 p.2) fun q hq =>
      ⟨hasKey_setPair_of o p.1 q.1 p.2 (hd q (by simp [hq])).1,
       (hd q (by simp [hq])).2⟩

/-- C3 (amended): for a live row and update data writing only non-key
columns the row already has: when the merged values deep-equal the
current ones the call returns with the table unchanged, so the row stays
in whichever bucket it occupied; otherwise the row leaves `untouched`
and enters `changed` unless it is already in `added`, in which case it
stays in `added`.  (The amendment restricts the data to non-key columns:
data writing a key column makes `Object.assign` throw, leaving every
bucket unchanged — see the counterexample.) -/
theorem c3_update_buckets (t : Table) (rid : Nat) (data : Obj)
    (hlive : rid ∈ t.all)
    (hnodup : t.untouched.Nodup)
    (hdata : ∀ p ∈ data, hasKey (heapObj t rid) p.1 = true ∧ p.1 ∉ t.key) :
    (objEqb (heapObj t rid) (spreadMerge (heapObj t rid) data) = true →
      t.update rid data = (t, .ok ())) ∧
    (objEqb (heapObj t rid) (spreadMerge (heapObj t rid) data) = false →
      (t.update rid data).2 = .ok () ∧
      rid ∉ (t.update rid data).1.untouched ∧
      (rid ∈ t.added → rid ∈ (t.update rid data).1.added) ∧
      (rid ∉ t.added → rid ∈ (t.update rid data).1.changed)) := by
  constructor
  · intro h
    simp [Table.update, hlive, h]
  · intro h
    have hnf : (assignRow t.key (heapObj t rid) data).2 = false :=
      assignRow_no_fault t.key data (heapObj t rid) hdata
    refine ⟨?_, ?_, ?_, ?_⟩
    · simp [Table.update, hlive, h, hnf]
    · simp only [Table.update, hlive, if_true, h, if_false, hnf,
        Bool.false_eq_true]
      exact hnodup.not_mem_erase
    · intro hadd
      simp only [Table.update, hlive, if_true, h, if_false, hnf,
        Bool.false_eq_true]
      exact hadd
    · intro hadd
      simp only [Table.update, hlive, if_true, h, if_false, hnf,
        Bool.false_eq_true, hadd]
      exact mem_addSet_self t.changed rid

/-- C3 witness: on the example table with rows reset to `untouched`,
updating row 0's non-key column `foo` moves it from `untouched` to
`changed`. -/
theorem c3_update_buckets_witness :
    (c3T.update 0 [("foo", .str "Z")]).2 = .ok () ∧
    0 ∉ (c3T.update 0 [("foo", .str "Z")]).1.untouched ∧
    0 ∈ (c3T.update 0 [("foo", .str "Z")]).1.changed := by
  have h :=
    (c3_update_buckets c3T 0 [("foo", .str "Z")]
      (by decide) (by decide) (by decide)).2 (by decide)
  exact ⟨h.1, h.2.1, h.2.2.2 (by decide)⟩

/-- C3 counterexample: updating live, `untouched` row 0 with data that
writes the key column `k1` (a merged value different from the current
one) throws `TypeError` and moves the row into no bucket: it stays in
`untouched` and never enters `changed`, against the claim's "otherwise
the row leaves untouched and enters changed". -/
theorem c3_counterexample :
    objEqb (heapObj c3T 0) (spreadMerge (heapObj c3T 0) [("k1", .num 9)]) = false ∧
    0 ∈ c3T.all ∧ 0 ∈ c3T.untouched ∧
    (c3T.update 0 [("k1", .num 9)]).2 = .error .typeError ∧
    0 ∈ (c3T.update 0 [("k1", .num 9)]).1.untouched ∧
    0 ∉ (c3T.update 0 [("k1", .num 9)]).1.changed := by
  decide

/-- C4 counterexample: on the empty example table, `find` with key data
that supplies `k1` but not the key column `k2` returns explicit absence
instead of failing with the missing-key error: the walk breaks at the
missing first-level index entry before the check on `k2` is reached. -/
theorem c4_counterexample :
    "k2" ∈ exT0.key ∧
    hasKey [("k1", Value.num 1)] "k2" = false ∧
    exT0.find [("k1", .num 1)] = .ok none := by
  decide

/-- C8: after `resetChanges()` the `untouched` bucket is the full live
row set and the other three buckets are empty; the same holds after any
successful `load`, which ends in `resetChanges()`. -/
theorem c8_reset_and_load :
    (∀ t : Table,
      (Table.resetChanges t).untouched = (Table.resetChanges t).all ∧
      (Table.resetChanges t).added = [] ∧
      (Table.resetChanges t).changed = [] ∧
      (Table.resetChanges t).deleted = []) ∧
    (∀ (t : Table) (objs : List Obj) (reg : Reg) (t' : Table),
      t.load objs reg = .ok t' →
      t'.untouched = t'.all ∧ t'.added = [] ∧ t'.changed = [] ∧
      t'.deleted = []) := by
  constructor
  · intro t; exact ⟨rfl, rfl, rfl, rfl⟩
  · intro t objs reg t' h
    unfold Table.load at h
    simp only [bind, Except.bind] at h
    split at h
    · simp at h
    · simp only [pure, Except.pure, Except.ok.injEq] at h
      subst h
      exact ⟨rfl, rfl, rfl, rfl⟩

/-- C8 witness: loading one record into the fresh example table leaves
`untouched` equal to the live set and the other buckets empty. -/
theorem c8_witness :
    c8T.untouched = c8T.all ∧ c8T.added = [] ∧ c8T.changed = [] ∧
    c8T.deleted = [] :=
  c8_reset_and_load.2 exT0
    [[("k1", .num 1), ("k2", .num 1), ("foo", .str "x")]] [] c8T (by rfl)

end MemDB

namespace SecDB

open MemDB (Value Obj lkp setPair objGet spreadMerge addSet lkp_setPair_self
  mem_addSet_self)

/-- C7 (amended): a unique secondary index's `add` fails with
`KeyViolation` carrying the row being added exactly when the derived key
is already present in the map — whether it maps to a different row or to
the same row — and otherwise installs the mapping, after which `get` on
matching data returns the row; `get` returns the row mapped to the
query's derived key, or absence when the key is unmapped. -/
theorem c7_unique_add_get (fn : Obj → Value) (m : List (Value × Nat))
    (obj : Obj) (rid : Nat) :
    ((lkp m (fn obj)).isSome = true →
      ixAdd obj rid (.uniq fn m) = .error (.keyViolation rid)) ∧
    ((lkp m (fn obj)).isSome = false →
      ixAdd obj rid (.uniq fn m) = .ok (.uniq fn (setPair m (fn obj) rid)) ∧
      ixGet obj (.uniq fn (setPair m (fn obj) rid)) = .inl (some rid)) ∧
    (∀ q : Obj, lkp m (fn q) = none → ixGet q (.uniq fn m) = .inl none) ∧
    (∀ (q : Obj) (r : Nat), lkp m (fn q) = some r →
      ixGet q (.uniq fn m) = .inl (some r)) := by
  refine ⟨fun h => ?_, fun h => ⟨?_, ?_⟩, fun q hq => ?_, fun q r hq => ?_⟩
  · simp [ixAdd, h]
  · simp [ixAdd, h]
  · simp [ixGet, lkp_setPair_self]
  · simp [ixGet, hq]
  · simp [ixGet, hq]

/-- C7 witness: adding a row to an empty unique index installs the
mapping and `get` finds it. -/
theorem c7_witness :
    ixAdd sD 0 (.uniq sFn []) = .ok (.uniq sFn (setPair [] (sFn sD) 0)) ∧
    ixGet sD (.uniq sFn (setPair [] (sFn sD) 0)) = .inl (some 0) :=
  (c7_unique_add_get sFn [] sD 0).2.1 (by rfl)

/-- C7 counterexample: a unique index on `foo` already mapping 'bar' to
row 5 rejects adding row 5 itself with `KeyViolation`, even though the
derived key maps to the very row being added and not to a different
row — refuting the claim's "if and only if the derived key already maps
to a different row". -/
theorem c7_counterexample :
    lkp c7M (c7fn c7row) = some 5 ∧
    ixAdd c7row 5 (.uniq c7fn c7M) = .error (.keyViolation 5) :=
  ⟨rfl, rfl⟩

/-- C10: every successful single-record `upsert` puts the resulting row
in `_changed` — there is no no-op check, so this holds even when the
assigned values equal the row's current ones — and the next `save` hands
that row to `onsave` in its `changed` argument. -/
theorem c10_upsert_marks_changed (t : STable) (data : Obj) (rid : Nat)
    (t' : STable) (h : upsert t data = .ok (rid, t')) :
    rid ∈ t'.changed ∧ rid ∈ (save t').1.1 := by
  unfold upsert at h
  cases hm : mainLookup t data with
  | some r0 =>
    rw [hm] at h
    simp only [bind, Except.bind] at h
    split at h
    · simp at h
    · split at h
      · simp at h
      · simp only [pure, Except.pure, Except.ok.injEq, Prod.mk.injEq] at h
        obtain ⟨hr, ht⟩ := h
        subst hr
        subst ht
        exact ⟨mem_addSet_self t.changed r0, mem_addSet_self t.changed r0⟩
  | none =>
    rw [hm] at h
    simp only [bind, Except.bind] at h
    split at h
    · simp at h
    · simp only [pure, Except.pure, Except.ok.injEq, Prod.mk.injEq] at h
      obtain ⟨hr, ht⟩ := h
      subst hr
      subst ht
      exact ⟨mem_addSet_self t.changed t.nextId,
             mem_addSet_self t.changed t.nextId⟩

/-- C10 witness: upserting the very same record a second time — values
identical to the row's current ones — still marks row 0 changed, and
`save` passes it to `onsave`. -/
theorem c10_witness :
    sObj sT1 0 = MemDB.spreadMerge (sObj sT1 0) sD ∧
    (0 ∈ sT2.changed ∧ 0 ∈ (save sT2).1.1) :=
  ⟨by decide, c10_upsert_marks_changed sT1 sD 0 sT2 (by rfl)⟩

end SecDB

namespace MemDB

theorem lkp_some_iff_mem {α β : Type} [DecidableEq α] {l : List (α × β)}
    (hnd : (l.map Prod.fst).Nodup) {k : α} {b : β} :
    lkp l k = some b ↔ (k, b) ∈ l := by
  induction l with
  | nil => simp [lkp]
  | cons p rest ih =>
    obtain ⟨a, c⟩ := p
    simp only [List.map_cons, List.nodup_cons, List.mem_map] at hnd
    obtain ⟨hna, hrest⟩ := hnd
    by_cases h : a = k
    · subst h
      have hl : lkp ((a, c) :: rest) a = some c := by simp [lkp]
      rw [hl]
      simp only [Option.some.injEq, List.mem_cons, Prod.mk.injEq]
      constructor
      · rintro rfl; simp
      · rintro (⟨_, rfl⟩ | hmem)
        · rfl
        · exact absurd ⟨(a, b), hmem, rfl⟩ hna
    · simp only [lkp, if_neg h, List.mem_cons, ih hrest, Prod.mk.injEq]
      constructor
      · exact Or.inr
      · rintro (⟨rfl, rfl⟩ | hmem)
        · exact absurd rfl h
        · exact hmem

theorem entriesT_one_nil : entriesT 1 (.map []) = [] := rfl

theorem entriesT_one_cons (v : Value) (n : Node) (rest : List (Value × Node)) :
    entriesT 1 (.map ((v, n) :: rest)) =
      (match n with
       | .row r => ([v], r) :: entriesT 1 (.map rest)
       | .map _ => entriesT 1 (.map rest)) := rfl

theorem entriesT_succ_nil (d : Nat) : entriesT (d + 2) (.map []) = [] := rfl

theorem entriesT_succ_cons (d : Nat) (v : Value) (n : Node)
    (rest : List (Value × Node)) :
    entriesT (d + 2) (.map ((v, n) :: rest)) =
      ((entriesT (d + 1) n).map fun q => (v :: q.1, q.2)) ++
        entriesT (d + 2) (.map rest) := rfl

theorem mem_entriesT_one (es : List (Value × Node)) (p : List Value) (r : Nat) :
    (p, r) ∈ entriesT 1 (.map es) ↔ ∃ v, p = [v] ∧ (v, Node.row r) ∈ es := by
  induction es with
  | nil => simp [entriesT_one_nil]
  | cons e rest ih =>
    obtain ⟨v, n⟩ := e
    rw [entriesT_one_cons]
    cases n with
    | row r' =>
      simp only [List.mem_cons, ih, Prod.mk.injEq, Node.row.injEq]
      constructor
      · rintro (⟨rfl, rfl⟩ | ⟨w, rfl, hmem⟩)
        · exact ⟨v, rfl, Or.inl ⟨rfl, rfl⟩⟩
        · exact ⟨w, rfl, Or.inr hmem⟩
      · rintro ⟨w, rfl, (⟨rfl, rfl⟩ | hmem)⟩
        · exact Or.inl ⟨rfl, rfl⟩
        · exact Or.inr ⟨w, rfl, hmem⟩
    | map es' =>
      simp only [ih, List.mem_cons, Prod.mk.injEq]
      constructor
      · rintro ⟨w, rfl, hmem⟩
        exact ⟨w, rfl, Or.inr hmem⟩
      · rintro ⟨w, rfl, (⟨rfl, h⟩ | hmem)⟩
        · exact absurd h (by simp)
        · exact ⟨w, rfl, hmem⟩

theorem mem_entriesT_succ (d : Nat) (es : List (Value × Node)) (p : List Value)
    (r : Nat) :
    (p, r) ∈ entriesT (d + 2) (.map es) ↔
      ∃ v child q, (v, child) ∈ es ∧ p = v :: q ∧
        (q, r) ∈ entriesT (d + 1) child := by
  induction es with
  | nil => simp [entriesT_succ_nil]
  | cons e rest ih =>
    obtain ⟨v, n⟩ := e
    rw [entriesT_succ_cons]
    simp only [List.mem_append, List.mem_map, ih, List.mem_cons,
      Prod.mk.injEq]
    constructor
    · rintro (⟨⟨q, r'⟩, hq, heq, rfl⟩ | ⟨w, child, q, hmem, rfl, hq⟩)
      · exact ⟨v, n, q, Or.inl ⟨rfl, rfl⟩, heq.symm ▸ rfl, by simpa using hq⟩
      · exact ⟨w, child, q, Or.inr hmem, rfl, hq⟩
    · rintro ⟨w, child, q, (⟨rfl, rfl⟩ | hmem), rfl, hq⟩
      · exact Or.inl ⟨(q, r), hq, rfl, rfl⟩
      · exact Or.inr ⟨w, child, q, hmem, rfl, hq⟩

theorem reach_entries :
    ∀ (d : Nat) (ix : Node), wfT d ix = true →
      ∀ (p : List Value) (r : Nat),
        ((p, r) ∈ entriesT d ix ↔ p.length = d ∧ reachT p ix = some r) := by
  intro d
  induction d with
  | zero => intro ix hwf; simp [wfT] at hwf
  | succ d ih =>
    intro ix hwf p r
    cases ix with
    | row rid => cases d <;> simp [wfT] at hwf
    | map es =>
      cases d with
      | zero =>
        simp only [wfT, Bool.and_eq_true, decide_eq_true_eq] at hwf
        obtain ⟨_, hnd⟩ := hwf
        rw [mem_entriesT_one]
        constructor
        · rintro ⟨v, rfl, hvr⟩
          refine ⟨rfl, ?_⟩
          have hl := (lkp_some_iff_mem hnd).mpr hvr
          simp [reachT, hl]
        · rintro ⟨hlen, hreach⟩
          match p, hlen with
          | [v], _ =>
            simp only [reachT] at hreach
            cases hl : lkp es v with
            | none => rw [hl] at hreach; simp at hreach
            | some n =>
              rw [hl] at hreach
              cases n with
              | row r' =>
                simp only [Option.some.injEq] at hreach
                subst hreach
                exact ⟨v, rfl, (lkp_some_iff_mem hnd).mp hl⟩
              | map _ => simp at hreach
      | succ d' =>
        simp only [wfT, Bool.and_eq_true, List.all_eq_true,
          decide_eq_true_eq] at hwf
        obtain ⟨hch, hnd⟩ := hwf
        rw [mem_entriesT_succ]
        constructor
        · rintro ⟨v, child, q, hmem, rfl, hq⟩
          have hwfc : wfT (d' + 1) child = true := hch (v, child) hmem
          obtain ⟨hlen, hreach⟩ := (ih child hwfc q r).mp hq
          have hl := (lkp_some_iff_mem hnd).mpr hmem
          refine ⟨by simp [hlen], ?_⟩
          match q, hlen with
          | q0 :: qs, _ =>
            simp only [reachT, hl]
            exact hreach
        · rintro ⟨hlen, hreach⟩
          match p, hlen with
          | v :: q0 :: qs, hlen =>
            simp only [reachT] at hreach
            cases hl : lkp es v with
            | none => rw [hl] at hreach; simp at hreach
            | some child =>
              rw [hl] at hreach
              have hmem := (lkp_some_iff_mem hnd).mp hl
              have hwfc : wfT (d' + 1) child = true := hch (v, child) hmem
              refine ⟨v, child, q0 :: qs, hmem, rfl, ?_⟩
              exact (ih child hwfc (q0 :: qs) r).mpr
                ⟨by simpa using hlen, hreach⟩

theorem seekT_full :
    ∀ (key : List String) (kd : Obj) (ix : Node),
      (∀ c ∈ key, hasKey kd c = true) →
      seekT key kd ix = .ok (reachT (pth key kd) ix) := by
  intro key
  induction key with
  | nil => intro kd ix _; simp [seekT, pth, reachT]
  | cons c rest ih =>
    intro kd ix hk
    have hc : hasKey kd c = true := hk c (by simp)
    cases rest with
    | nil =>
      cases ix with
      | map es => simp [seekT, hc, pth, reachT]
      | row _ => simp [seekT, hc, pth, reachT]
    | cons c' rest' =>
      cases ix with
      | map es =>
        simp only [seekT, hc, if_true]
        cases hl : lkp es (objGet kd c) with
        | none => simp [pth, reachT, hl]
        | some child =>
          have hred :
              (match some child with
               | some child => seekT (c' :: rest') kd child
               | none => Except.ok none) =
                seekT (c' :: rest') kd child := rfl
          rw [hred, ih kd child fun x hx => hk x (by simp [hx])]
          simp [pth, reachT, hl]
      | row _ => simp [seekT, hc, pth, reachT]

theorem seekT_missing :
    ∀ (key : List String) (kd : Obj) (ix : Node),
      (∃ c ∈ key, hasKey kd c = false) →
      seekT key kd ix = .ok none ∨
        ∃ c ∈ key, hasKey kd c = false ∧
          seekT key kd ix = .error (.missingKey c) := by
  intro key
  induction key with
  | nil => rintro kd ix ⟨c, hc, _⟩; cases hc
  | cons c rest ih =>
    intro kd ix hmiss
    by_cases hc : hasKey kd c = true
    · have hrest : ∃ c' ∈ rest, hasKey kd c' = false := by
        obtain ⟨c', hc', hmc'⟩ := hmiss
        rcases List.mem_cons.mp hc' with rfl | hmem
        · exact absurd hc (by simp [hmc'])
        · exact ⟨c', hmem, hmc'⟩
      cases rest with
      | nil => obtain ⟨c', hc', _⟩ := hrest; cases hc'
      | cons c' rest' =>
        cases ix with
        | map es =>
          simp only [seekT, hc, if_true]
          cases hl : lkp es (objGet kd c) with
          | none => exact Or.inl rfl
          | some child =>
            rcases ih kd child hrest with h | ⟨c'', hc'', hmc'', h⟩
            · exact Or.inl h
            · exact Or.inr ⟨c'', by simp [hc''], hmc'', h⟩
        | row _ => exact Or.inl (by simp [seekT, hc])
    · have hcf : hasKey kd c = false := by simpa using hc
      cases rest with
      | nil =>
        exact Or.inr ⟨c, by simp, hcf, by simp [seekT, hcf]⟩
      | cons c' rest' =>
        exact Or.inr ⟨c, by simp, hcf, by simp [seekT, hcf]⟩

/-- C4 (amended): on a consistent table, `find` with key data supplying
every key column never throws: it returns the unique live row whose key
values match, or null when there is none.  With a key column missing,
`find` never returns a row: it fails with the missing-key error when the
walk reaches that column, and otherwise — the walk having broken off at
an absent intermediate index entry — returns null.  (The amendment: the
original claim required a MissingKeyError for every missing key column;
the walk can end with null first, see the counterexample.) -/
theorem c4_find_characterization (t : Table) (hinv : Inv t) (kd : Obj) :
    ((∀ c ∈ t.key, hasKey kd c = true) →
      ∃ res, t.find kd = .ok res ∧
        ∀ rid : Nat, res = some rid ↔
          rid ∈ t.all ∧ pth t.key (heapObj t rid) = pth t.key kd) ∧
    ((∃ c ∈ t.key, hasKey kd c = false) →
      t.find kd = .ok none ∨
        ∃ c ∈ t.key, hasKey kd c = false ∧
          t.find kd = .error (.missingKey c)) := by
  constructor
  · intro hfull
    refine ⟨reachT (pth t.key kd) t.index, seekT_full t.key kd t.index hfull, ?_⟩
    intro rid
    constructor
    · intro hreach
      have hlen : (pth t.key kd).length = t.key.length := by simp [pth]
      have hmem := (reach_entries t.key.length t.index hinv.wf
        (pth t.key kd) rid).mpr ⟨hlen, hreach⟩
      have hmem' := hinv.entries.mem_iff.mp hmem
      obtain ⟨rid', hrid', heq⟩ := List.mem_map.mp hmem'
      obtain ⟨hpath, hid⟩ := Prod.mk.injEq .. ▸ heq
      subst hid
      exact ⟨hrid', hpath⟩
    · rintro ⟨hlive, hpath⟩
      have hmem : (pth t.key kd, rid) ∈
          t.all.map fun i => (pth t.key (heapObj t i), i) :=
        List.mem_map.mpr ⟨rid, hlive, by rw [hpath]⟩
      have hmem' := hinv.entries.mem_iff.mpr hmem
      exact ((reach_entries t.key.length t.index hinv.wf
        (pth t.key kd) rid).mp hmem').2
  · intro hmiss
    exact seekT_missing t.key kd t.index hmiss

theorem rowCmp_gt_imp_lt :
    ∀ (key : List String) (a b : Obj),
      rowCmp key a b = .gt → rowCmp key b a = .lt := by
  intro key
  induction key with
  | nil => intro a b h; simp [rowCmp] at h
  | cons c rest ih =>
    intro a b h
    by_cases h1 : jsLt (objGet a c) (objGet b c) = true
    · simp [rowCmp, h1] at h
    · by_cases h2 : jsLt (objGet b c) (objGet a c) = true
      · simp [rowCmp, h2]
      · simp only [rowCmp, h1, if_false, h2] at h ⊢
        simp only [Bool.not_eq_true] at h1 h2
        simp [h1, h2]
        exact ih a b (by simpa [rowCmp, h1, h2] using h)

theorem jsLt_num (m n : Int) :
    jsLt (.num m) (.num n) = decide (m < n) := rfl

theorem jsLt_str (a b : String) :
    jsLt (.str a) (.str b) = decide (a < b) := rfl

theorem rowCmp_trans_le :
    ∀ (key : List String) (a b c : Obj),
      (∀ s ∈ key,
        ((objGet a s).isNum = true ∧ (objGet b s).isNum = true ∧
          (objGet c s).isNum = true) ∨
        ((objGet a s).isStr = true ∧ (objGet b s).isStr = true ∧
          (objGet c s).isStr = true)) →
      rowCmp key a b ≠ .gt → rowCmp key b c ≠ .gt → rowCmp key a c ≠ .gt := by
  intro key
  induction key with
  | nil => intro a b c _ _ _; simp [rowCmp]
  | cons s rest ih =>
    intro a b c hhom h1 h2
    have hrest : ∀ s' ∈ rest,
        ((objGet a s').isNum = true ∧ (objGet b s').isNum = true ∧
          (objGet c s').isNum = true) ∨
        ((objGet a s').isStr = true ∧ (objGet b s').isStr = true ∧
          (objGet c s').isStr = true) :=
      fun s' hs' => hhom s' (by simp [hs'])
    rcases hhom s (by simp) with ⟨ha, hb, hc⟩ | ⟨ha, hb, hc⟩
    · obtain ⟨m, hm⟩ : ∃ m, objGet a s = .num m := by
        cases hv : objGet a s <;> simp [hv, Value.isNum] at ha ⊢
      obtain ⟨n, hn⟩ : ∃ n, objGet b s = .num n := by
        cases hv : objGet b s <;> simp [hv, Value.isNum] at hb ⊢
      obtain ⟨p, hp⟩ : ∃ p, objGet c s = .num p := by
        cases hv : objGet c s <;> simp [hv, Value.isNum] at hc ⊢
      simp only [rowCmp, hm, hn, hp, jsLt_num] at h1 h2 ⊢
      rcases lt_trichotomy m n with hmn | hmn | hmn
      · rcases lt_trichotomy n p with hnp | hnp | hnp
        · simp [show m < p by omega]
        · simp [show m < p by omega]
        · exact absurd (by simp [show ¬ n < p by omega, hnp]) h2
      · subst hmn
        rcases lt_trichotomy m p with hmp | hmp | hmp
        · simp [hmp]
        · subst hmp
          simp only [show (decide (m < m)) = false by simp,
            Bool.false_eq_true, if_false] at h1 h2 ⊢
          exact ih a b c hrest h1 h2
        · exact absurd (by simp [show ¬ m < p by omega, hmp]) h2
      · exact absurd (by simp [show ¬ m < n by omega, hmn]) h1
    · obtain ⟨x, hx⟩ : ∃ x, objGet a s = .str x := by
        cases hv : objGet a s <;> simp [hv, Value.isStr] at ha ⊢
      obtain ⟨y, hy⟩ : ∃ y, objGet b s = .str y := by
        cases hv : objGet b s <;> simp [hv, Value.isStr] at hb ⊢
      obtain ⟨z, hz⟩ : ∃ z, objGet c s = .str z := by
        cases hv : objGet c s <;> simp [hv, Value.isStr] at hc ⊢
      simp only [rowCmp, hx, hy, hz, jsLt_str] at h1 h2 ⊢
      rcases lt_trichotomy x y with hxy | hxy | hxy
      · rcases lt_trichotomy y z with hyz | hyz | hyz
        · simp [show x < z from lt_trans hxy hyz]
        · simp [show x < z from hyz ▸ hxy]
        · exact absurd (by simp [lt_asymm hyz, hyz]) h2
      · subst hxy
        rcases lt_trichotomy x z with hxz | hxz | hxz
        · simp [hxz]
        · subst hxz
          simp only [show (decide (x < x)) = false by simp,
            Bool.false_eq_true, if_false] at h1 h2 ⊢
          exact ih a b c hrest h1 h2
        · exact absurd (by simp [lt_asymm hxz, hxz]) h2
      · exact absurd (by simp [lt_asymm hxy, hxy]) h1

theorem pairwise_orderedInsert (r : Nat → Nat → Prop) [DecidableRel r]
    (a : Nat) :
    ∀ l : List Nat, l.Pairwise r → (∀ b ∈ l, r a b ∨ r b a) →
      (∀ y ∈ l, ∀ c ∈ l, r a y → r y c → r a c) →
      (List.orderedInsert r a l).Pairwise r := by
  intro l
  induction l with
  | nil => intro _ _ _; simp
  | cons b rest ih =>
    intro hp htot htr
    by_cases hab : r a b
    · rw [List.orderedInsert, if_pos hab]
      refine List.Pairwise.cons ?_ hp
      intro x hx
      rcases List.mem_cons.mp hx with rfl | hxr
      · exact hab
      · exact htr b (by simp) x (by simp [hxr]) hab
          (List.rel_of_pairwise_cons hp hxr)
    · rw [List.orderedInsert, if_neg hab]
      refine List.Pairwise.cons ?_ ?_
      · intro x hx
        rcases (List.mem_orderedInsert r).mp hx with rfl | hxr
        · rcases htot b (by simp) with h | h
          · exact absurd h hab
          · exact h
        · exact List.rel_of_pairwise_cons hp hxr
      · exact ih (List.Pairwise.of_cons hp)
          (fun x hx => htot x (by simp [hx]))
          (fun y hy c hc => htr y (by simp [hy]) c (by simp [hc]))

theorem pairwise_insertionSort_local (r : Nat → Nat → Prop) [DecidableRel r] :
    ∀ l : List Nat, (∀ x ∈ l, ∀ y ∈ l, r x y ∨ r y x) →
      (∀ x ∈ l, ∀ y ∈ l, ∀ z ∈ l, r x y → r y z → r x z) →
      (List.insertionSort r l).Pairwise r := by
  intro l
  induction l with
  | nil => intro _ _; simp
  | cons a rest ih =>
    intro htot htr
    rw [List.insertionSort]
    refine pairwise_orderedInsert r a (List.insertionSort r rest)
      (ih (fun x hx y hy => htot x (by simp [hx]) y (by simp [hy]))
          (fun x hx y hy z hz => htr x (by simp [hx]) y (by simp [hy])
            z (by simp [hz]))) ?_ ?_
    · intro b hb
      exact htot a (by simp) b (by simp [(List.mem_insertionSort r).mp hb])
    · intro y hy c hc
      exact htr a (by simp) y (by simp [(List.mem_insertionSort r).mp hy])
        c (by simp [(List.mem_insertionSort r).mp hc])

theorem rowLeB_false_iff (t : Table) (x y : Nat) :
    rowLeB t x y = false ↔
      rowCmp t.key (heapObj t x) (heapObj t y) = .gt := by
  cases h : rowCmp t.key (heapObj t x) (heapObj t y) <;>
    simp [rowLeB, bne, h] <;> rfl

theorem rowLeB_true_iff (t : Table) (x y : Nat) :
    rowLeB t x y = true ↔
      rowCmp t.key (heapObj t x) (heapObj t y) ≠ .gt := by
  cases h : rowCmp t.key (heapObj t x) (heapObj t y) <;>
    simp [rowLeB, bne, h] <;> rfl

theorem getData_heap (t : Table) : t.getData.2.heap = t.heap := by
  unfold Table.getData
  split <;> rfl

theorem getData_perm (t : Table) : List.Perm t.getData.1 t.all := by
  unfold Table.getData
  split
  · exact List.perm_insertionSort _ t.all
  · exact List.Perm.refl _

/-- C5 (amended): reading `data` always yields a permutation of the live
rows, and whenever every key column is type-homogeneous across the live
rows — all numbers, or all strings, the domains on which JS `<` is a
total order — the rows come ascending by the key columns in declared
order, the first differing column deciding (when `#needSort` is clear,
the live set is already in sorted order from the previous read).  In
particular, on the schema cols=k1,k2,foo key=k1,k2, after inserting
(2,2,'bar'), (1,2,'baz'), (2,3,'boz'), reading `data` yields
(1,2,'baz'), (2,2,'bar'), (2,3,'boz').  (The amendment: with mixed
number/string values in one key column, JS `<` relates neither order of
an incomparable pair, the comparator reports a tie, and the stable sort
leaves such rows in insertion order — see the counterexample — so the
unqualified "sorted ascending" of the original claim had to be
restricted to type-homogeneous key columns.) -/
theorem c5_data_sorted :
    (∀ t : Table, List.Perm t.getData.1 t.all) ∧
    (∀ t : Table,
      (t.needSort = false →
        t.all.Pairwise fun x y => rowLeB t x y = true) →
      (∀ c ∈ t.key,
        (∀ rid ∈ t.all, (objGet (heapObj t rid) c).isNum = true) ∨
        (∀ rid ∈ t.all, (objGet (heapObj t rid) c).isStr = true)) →
      t.getData.1.Pairwise fun x y => rowLeB t x y = true) ∧
    exT3.getData.1.map (heapObj exT3) =
      [[("k1", .num 1), ("k2", .num 2), ("foo", .str "baz")],
       [("k1", .num 2), ("k2", .num 2), ("foo", .str "bar")],
       [("k1", .num 2), ("k2", .num 3), ("foo", .str "boz")]] := by
  refine ⟨fun t => getData_perm t, ?_, by decide⟩
  intro t hs hhom
  by_cases hns : t.needSort
  · have hle : ∀ x y : Nat, rowLeB t x y = false → rowLeB t y x = true := by
      intro x y h
      have hgt := (rowLeB_false_iff t x y).mp h
      have hlt := rowCmp_gt_imp_lt t.key (heapObj t x) (heapObj t y) hgt
      exact (rowLeB_true_iff t y x).mpr (by simp [hlt])
    simp only [Table.getData, hns, if_true]
    refine pairwise_insertionSort_local _ t.all ?_ ?_
    · intro x _ y _
      by_cases h : rowLeB t x y = true
      · exact Or.inl h
      · exact Or.inr (hle x y (by simpa using h))
    · intro x hx y hy z hz h1 h2
      have h1' := (rowLeB_true_iff t x y).mp h1
      have h2' := (rowLeB_true_iff t y z).mp h2
      refine (rowLeB_true_iff t x z).mpr
        (rowCmp_trans_le t.key (heapObj t x) (heapObj t y) (heapObj t z)
          ?_ h1' h2')
      intro c hc
      rcases hhom c hc with hnum | hstr
      · exact Or.inl ⟨hnum x hx, hnum y hy, hnum z hz⟩
      · exact Or.inr ⟨hstr x hx, hstr y hy, hstr z hz⟩
  · have hns' : t.needSort = false := by simpa using hns
    simp only [Table.getData, hns', Bool.false_eq_true, if_false]
    exact hs hns'

/-- C5 witness: the sortedness statement applied to the (numeric-keyed)
example table, whose hypotheses hold by computation. -/
theorem c5_data_sorted_witness :
    ((exT3.needSort = false →
       exT3.all.Pairwise fun x y => rowLeB exT3 x y = true) ∧
      ∀ c ∈ exT3.key,
        (∀ rid ∈ exT3.all, (objGet (heapObj exT3 rid) c).isNum = true) ∨
        (∀ rid ∈ exT3.all, (objGet (heapObj exT3 rid) c).isStr = true)) ∧
    exT3.getData.1.Pairwise fun x y => rowLeB exT3 x y = true :=
  ⟨⟨by decide, by decide⟩, c5_data_sorted.2.1 exT3 (by decide) (by decide)⟩

/-- C5 counterexample: a key column holding both numbers and strings.
The table holds rows with key values 5, 'x', 3 (in that insertion
order); every adjacent comparison is a tie (JS `<` against the NaN of a
non-numeric string is false both ways), the stable sort keeps insertion
order, and `data` yields the row with key 5 before the row with key 3
even though 3 < 5 — so `data` is not the live rows sorted ascending by
the key columns, refuting the original claim's unqualified "for every
table". -/
theorem c5_counterexample :
    0 ∈ mixT.all ∧ 2 ∈ mixT.all ∧
    mixT.getData.1 = [0, 1, 2] ∧
    mixT.getData.1.map (fun rid => objGet (heapObj mixT rid) "k") =
      [.num 5, .str "x", .num 3] ∧
    jsLt (objGet (heapObj mixT 2) "k") (objGet (heapObj mixT 0) "k") = true ∧
    rowLeB mixT 0 2 = false ∧
    ¬ mixT.getData.1.Pairwise (fun x y => rowLeB mixT x y = true) := by
  decide

theorem lkp_append_some {α β : Type} [DecidableEq α] {l : List (α × β)}
    (l₂ : List (α × β)) {k : α} {b : β} (h : lkp l k = some b) :
    lkp (l ++ l₂) k = some b := by
  induction l with
  | nil => simp [lkp] at h
  | cons p rest ih =>
    obtain ⟨a, c⟩ := p
    simp only [List.cons_append, lkp] at h ⊢
    by_cases hp : a = k
    · simpa [hp] using h
    · rw [if_neg hp] at h ⊢
      exact ih h

theorem setPair_map_fst_of_mem {α β : Type} [DecidableEq α]
    {l : List (α × β)} {k : α} (v : β) (h : k ∈ l.map Prod.fst) :
    (setPair l k v).map Prod.fst = l.map Prod.fst := by
  induction l with
  | nil => simp at h
  | cons p rest ih =>
    obtain ⟨a, c⟩ := p
    by_cases hp : a = k
    · subst hp; simp [setPair]
    · simp only [List.map_cons, List.mem_cons] at h
      rcases h with h | h
      · exact absurd h.symm hp
      · simp [setPair, hp, ih h]

theorem heapWf_add_aux (heap : List (Nat × Obj)) (nid : Nat) (all : List Nat)
    (obj₀ : Obj) (hnd : (heap.map Prod.fst).Nodup)
    (hb : ∀ i ∈ heap.map Prod.fst, i < nid)
    (hall : ∀ i ∈ all, i ∈ heap.map Prod.fst) :
    ((heap ++ [(nid, obj₀)]).map Prod.fst).Nodup ∧
    (∀ i ∈ (heap ++ [(nid, obj₀)]).map Prod.fst, i < nid + 1) ∧
    (∀ i ∈ addSet all nid, i ∈ (heap ++ [(nid, obj₀)]).map Prod.fst) := by
  refine ⟨?_, ?_, ?_⟩
  · rw [List.map_append]
    refine List.Nodup.append hnd (by simp) ?_
    intro x hx hy
    simp only [List.map_cons, List.map_nil, List.mem_singleton] at hy
    subst hy
    exact absurd rfl (Nat.ne_of_lt (hb x hx))
  · intro i hi
    rw [List.map_append, List.mem_append] at hi
    rcases hi with hi | hi
    · exact Nat.lt_succ_of_lt (hb i hi)
    · simp only [List.map_cons, List.map_nil, List.mem_singleton] at hi
      subst hi; exact Nat.lt_succ_self _
  · intro i hi
    rw [List.map_append, List.mem_append]
    by_cases hmem : i ∈ all
    · exact Or.inl (hall i hmem)
    · have : i = nid := by
        by_cases hn : nid ∈ all
        · simp [addSet, hn] at hi; exact absurd hi hmem
        · simp only [addSet, hn, if_false, List.mem_append,
            List.mem_singleton] at hi
          rcases hi with hi | hi
          · exact absurd hi hmem
          · exact hi
      subst this; simp

theorem add_heap_facts (t : Table) (d : Obj) (hwf : HeapWf t) :
    HeapWf (t.add d).1 ∧ (t.add d).1.key = t.key ∧
    ∀ rid obj, lkp t.heap rid = some obj →
      ∃ obj', lkp (t.add d).1.heap rid = some obj' ∧
        ∀ c ∈ t.key, objGet obj' c = objGet obj c := by
  obtain ⟨hnd, hb, hall⟩ := hwf
  have haux := heapWf_add_aux t.heap t.nextId t.all
    (t.cols.map fun c => (c, objGet d c)) hnd hb hall
  unfold Table.add
  split
  · exact ⟨⟨hnd, hb, hall⟩, rfl, fun rid obj h => ⟨obj, h, fun _ _ => rfl⟩⟩
  · dsimp only
    split
    · exact ⟨⟨haux.1, haux.2.1, haux.2.2⟩, rfl,
        fun rid obj h => ⟨obj, lkp_append_some _ h, fun _ _ => rfl⟩⟩
    · exact ⟨⟨haux.1, haux.2.1, haux.2.2⟩, rfl,
        fun rid obj h => ⟨obj, lkp_append_some _ h, fun _ _ => rfl⟩⟩

theorem applyOp_preserves (t : Table) (op : Op) (hwf : HeapWf t) :
    HeapWf (applyOp t op) ∧ (applyOp t op).key = t.key ∧
    ∀ rid obj, lkp t.heap rid = some obj →
      ∃ obj', lkp (applyOp t op).heap rid = some obj' ∧
        ∀ c ∈ t.key, objGet obj' c = objGet obj c := by
  obtain ⟨hnd, hb, hall⟩ := hwf
  cases op with
  | add d => exact add_heap_facts t d ⟨hnd, hb, hall⟩
  | update rid' d =>
    show HeapWf (t.update rid' d).1 ∧ (t.update rid' d).1.key = t.key ∧
      ∀ rid obj, lkp t.heap rid = some obj →
        ∃ obj', lkp (t.update rid' d).1.heap rid = some obj' ∧
          ∀ c ∈ t.key, objGet obj' c = objGet obj c
    unfold Table.update
    by_cases hmem : rid' ∈ t.all
    · rw [if_pos hmem]
      by_cases heq :
          objEqb (heapObj t rid') (spreadMerge (heapObj t rid') d) = true
      · rw [if_pos heq]
        exact ⟨⟨hnd, hb, hall⟩, rfl, fun rid obj h => ⟨obj, h, fun _ _ => rfl⟩⟩
      · rw [if_neg heq]
        have hkeys :
            (setPair t.heap rid'
              (assignRow t.key (heapObj t rid') d).1).map Prod.fst =
              t.heap.map Prod.fst :=
          setPair_map_fst_of_mem _ (hall rid' hmem)
        have hnd' :
            ((setPair t.heap rid'
              (assignRow t.key (heapObj t rid') d).1).map Prod.fst).Nodup := by
          rw [hkeys]; exact hnd
        have hb' : ∀ i ∈ (setPair t.heap rid'
            (assignRow t.key (heapObj t rid') d).1).map Prod.fst,
              i < t.nextId := by
          rw [hkeys]; exact hb
        have hall' : ∀ i ∈ t.all, i ∈ (setPair t.heap rid'
            (assignRow t.key (heapObj t rid') d).1).map Prod.fst := by
          rw [hkeys]; exact hall
        have hlook : ∀ rid obj, lkp t.heap rid = some obj →
            ∃ obj', lkp (setPair t.heap rid'
                (assignRow t.key (heapObj t rid') d).1) rid = some obj' ∧
              ∀ c ∈ t.key, objGet obj' c = objGet obj c := by
          intro rid obj h
          by_cases hr : rid' = rid
          · subst hr
            refine ⟨_, lkp_setPair_self _ _ _, ?_⟩
            intro c hc
            have hobj : heapObj t rid' = obj := by simp [heapObj, h]
            rw [assignRow_keeps_key_fields t.key d (heapObj t rid') c hc, hobj]
          · exact ⟨obj, by rw [lkp_setPair_ne _ _ _ _ hr]; exact h,
              fun _ _ => rfl⟩
        dsimp only
        split
        · exact ⟨⟨hnd', hb', hall'⟩, rfl, hlook⟩
        · exact ⟨⟨hnd', hb', hall'⟩, rfl, hlook⟩
    · rw [if_neg hmem]
      exact ⟨⟨hnd, hb, hall⟩, rfl, fun rid obj h => ⟨obj, h, fun _ _ => rfl⟩⟩
  | delete_ rid' =>
    show HeapWf (t.delete_ rid').1 ∧ (t.delete_ rid').1.key = t.key ∧
      ∀ rid obj, lkp t.heap rid = some obj →
        ∃ obj', lkp (t.delete_ rid').1.heap rid = some obj' ∧
          ∀ c ∈ t.key, objGet obj' c = objGet obj c
    unfold Table.delete_
    by_cases hmem : rid' ∈ t.all
    · rw [if_pos hmem]
      exact ⟨⟨hnd, hb, fun i hi => hall i (List.mem_of_mem_erase hi)⟩, rfl,
        fun rid obj h => ⟨obj, h, fun _ _ => rfl⟩⟩
    · rw [if_neg hmem]
      exact ⟨⟨hnd, hb, hall⟩, rfl, fun rid obj h => ⟨obj, h, fun _ _ => rfl⟩⟩
  | get_ d =>
    show HeapWf (t.get_ d).1 ∧ (t.get_ d).1.key = t.key ∧
      ∀ rid obj, lkp t.heap rid = some obj →
        ∃ obj', lkp (t.get_ d).1.heap rid = some obj' ∧
          ∀ c ∈ t.key, objGet obj' c = objGet obj c
    unfold Table.get_
    split
    · exact ⟨⟨hnd, hb, hall⟩, rfl, fun rid obj h => ⟨obj, h, fun _ _ => rfl⟩⟩
    · exact ⟨⟨hnd, hb, hall⟩, rfl, fun rid obj h => ⟨obj, h, fun _ _ => rfl⟩⟩
    · exact add_heap_facts t d ⟨hnd, hb, hall⟩
  | readData =>
    show HeapWf t.getData.2 ∧ t.getData.2.key = t.key ∧
      ∀ rid obj, lkp t.heap rid = some obj →
        ∃ obj', lkp t.getData.2.heap rid = some obj' ∧
          ∀ c ∈ t.key, objGet obj' c = objGet obj c
    unfold Table.getData
    by_cases hns : t.needSort = true
    · rw [if_pos hns]
      exact ⟨⟨hnd, hb,
        fun i hi => hall i ((List.mem_insertionSort _).mp hi)⟩, rfl,
        fun rid obj h => ⟨obj, h, fun _ _ => rfl⟩⟩
    · rw [if_neg hns]
      exact ⟨⟨hnd, hb, hall⟩, rfl, fun rid obj h => ⟨obj, h, fun _ _ => rfl⟩⟩
  | resetChanges =>
    exact ⟨⟨hnd, hb, hall⟩, rfl, fun rid obj h => ⟨obj, h, fun _ _ => rfl⟩⟩
  | clear =>
    exact ⟨⟨hnd, hb, fun i hi => absurd hi (List.not_mem_nil i)⟩,
      rfl, fun rid obj h => ⟨obj, h, fun _ _ => rfl⟩⟩

theorem lkp_none_iff {α β : Type} [DecidableEq α] {l : List (α × β)} {k : α} :
    lkp l k = none ↔ k ∉ l.map Prod.fst := by
  induction l with
  | nil => simp [lkp]
  | cons p rest ih =>
    obtain ⟨a, c⟩ := p
    by_cases h : a = k
    · subst h; simp [lkp]
    · simp [lkp, h, ih, Ne.symm h]

theorem lkp_isSome_iff {α β : Type} [DecidableEq α] {l : List (α × β)} {k : α} :
    (lkp l k).isSome = true ↔ k ∈ l.map Prod.fst := by
  cases h : lkp l k with
  | none => simpa [h] using lkp_none_iff.mp h
  | some b =>
    simp only [h, Option.isSome_some, true_iff]
    by_contra hmem
    rw [lkp_none_iff.mpr hmem] at h
    cases h

theorem lkp_none_append {α β : Type} [DecidableEq α] {l : List (α × β)}
    (l₂ : List (α × β)) {k : α} (h : lkp l k = none) :
    lkp (l ++ l₂) k = lkp l₂ k := by
  induction l with
  | nil => simp
  | cons p rest ih =>
    obtain ⟨a, c⟩ := p
    by_cases hp : a = k
    · simp [lkp, hp] at h
    · simp only [lkp, hp, if_neg, if_false] at h
      simpa [lkp, hp] using ih h

theorem mem_setPair {α β : Type} [DecidableEq α] {k : α} {v : β} :
    ∀ (l : List (α × β)) (x : α × β),
      x ∈ setPair l k v → x ∈ l ∨ x = (k, v) := by
  intro l
  induction l with
  | nil => intro x h; simpa [setPair] using h
  | cons p rest ih =>
    intro x h
    obtain ⟨a, c⟩ := p
    by_cases hp : a = k
    · simp only [setPair, if_pos hp, List.mem_cons] at h
      rcases h with h | h
      · exact Or.inr h
      · exact Or.inl (List.mem_cons_of_mem _ h)
    · simp only [setPair, if_neg hp, List.mem_cons] at h
      rcases h with h | h
      · exact Or.inl (by rw [h]; exact List.mem_cons_self _ _)
      · rcases ih x h with h2 | h2
        · exact Or.inl (List.mem_cons_of_mem _ h2)
        · exact Or.inr h2

theorem setPair_map_fst_not_mem {α β : Type} [DecidableEq α]
    {l : List (α × β)} {k : α} (v : β) (h : k ∉ l.map Prod.fst) :
    (setPair l k v).map Prod.fst = l.map Prod.fst ++ [k] := by
  induction l with
  | nil => simp [setPair]
  | cons p rest ih =>
    obtain ⟨a, c⟩ := p
    simp only [List.map_cons, List.mem_cons] at h
    push_neg at h
    simp [setPair, Ne.symm h.1, ih h.2]

theorem reachT_empty : ∀ q : List Value, reachT q (.map []) = none
  | [] => rfl
  | [_] => rfl
  | _ :: _ :: _ => rfl

theorem reachT_row (q : List Value) (r : Nat) : reachT q (.row r) = none := by
  rcases q with _ | ⟨w, _ | _⟩ <;> rfl

theorem wfT_row_false : ∀ (d : Nat) (r : Nat), wfT d (.row r) = false
  | 0, _ => rfl
  | 1, _ => rfl
  | _ + 2, _ => rfl

theorem wfT_empty : ∀ d : Nat, 1 ≤ d → wfT d (.map []) = true
  | 1, _ => rfl
  | _ + 2, _ => rfl

theorem insT_insert (rid : Nat) :
    ∀ (p : List Value) (ix : Node), p ≠ [] → wfT p.length ix = true →
      reachT p ix = none →
      ∃ es', insT rid p ix = .ok (.map es') ∧
        wfT p.length (.map es') = true ∧
        reachT p (.map es') = some rid ∧
        ∀ q, q ≠ p → reachT q (.map es') = reachT q ix := by
  intro p
  induction p with
  | nil => intro ix h; exact absurd rfl h
  | cons v tail ih =>
    intro ix _ hwf hreach
    cases ix with
    | row r =>
      rw [wfT_row_false] at hwf
      cases hwf
    | map es =>
      cases tail with
      | nil =>
        -- final depth: p = [v]
        simp only [List.length_cons, List.length_nil, wfT,
          Bool.and_eq_true, List.all_eq_true, decide_eq_true_eq] at hwf
        obtain ⟨hrow, hnd⟩ := hwf
        have hl : lkp es v = none := by
          cases hl : lkp es v with
          | none => rfl
          | some n =>
            have hmem := (lkp_some_iff_mem hnd).mp hl
            have := hrow (v, n) hmem
            cases n with
            | row r => simp [reachT, hl] at hreach
            | map _ => simp at this
        refine ⟨es ++ [(v, .row rid)], ?_, ?_, ?_, ?_⟩
        · simp [insT, hl]
        · simp only [List.length_cons, List.length_nil, wfT,
            Bool.and_eq_true, List.all_eq_true, decide_eq_true_eq]
          constructor
          · intro x hx
            rcases List.mem_append.mp hx with hx | hx
            · exact hrow x hx
            · simp only [List.mem_singleton] at hx
              subst hx; rfl
          · rw [List.map_append]
            simp only [List.map_cons, List.map_nil]
            exact List.Nodup.append hnd (List.nodup_singleton v)
              (by intro x hx hy
                  simp only [List.mem_singleton] at hy
                  subst hy
                  exact lkp_none_iff.mp hl hx)
        · have : lkp (es ++ [(v, Node.row rid)]) v = some (.row rid) := by
            rw [lkp_none_append _ hl]
            simp [lkp]
          simp [reachT, this]
        · intro q hq
          rcases q with _ | ⟨w, _ | ⟨w', qs⟩⟩
          · rfl
          · have hwv : w ≠ v := fun h => hq (by rw [h])
            cases hw : lkp es w with
            | some n => simp [reachT, lkp_append_some _ hw, hw]
            | none =>
              have hwn : lkp (es ++ [(v, Node.row rid)]) w = none := by
                rw [lkp_none_append _ hw]
                simp [lkp, Ne.symm hwv]
              simp [reachT, hwn, hw]
          · cases hw : lkp es w with
            | some n => simp [reachT, lkp_append_some _ hw, hw]
            | none =>
              by_cases hwv : w = v
              · subst hwv
                have hwn : lkp (es ++ [(w, Node.row rid)]) w =
                    some (.row rid) := by
                  rw [lkp_none_append _ hw]
                  simp [lkp]
                simp [reachT, hwn, hw, reachT_row]
              · have hwn : lkp (es ++ [(v, Node.row rid)]) w = none := by
                  rw [lkp_none_append _ hw]
                  simp [lkp, Ne.symm hwv]
                simp [reachT, hwn, hw]
      | cons v' vs =>
        -- intermediate depth: p = v :: v' :: vs
        simp only [List.length_cons, wfT, Bool.and_eq_true,
          List.all_eq_true, decide_eq_true_eq] at hwf
        obtain ⟨hch, hnd⟩ := hwf
        have hlen : (v' :: vs).length = vs.length + 1 := rfl
        cases hl : lkp es v with
        | some child =>
          have hmem := (lkp_some_iff_mem hnd).mp hl
          have hwfc : wfT (vs.length + 1) child = true := hch (v, child) hmem
          have hreachc : reachT (v' :: vs) child = none := by
            simpa [reachT, hl] using hreach
          obtain ⟨es'', hins, hwf'', hself'', hothers''⟩ :=
            ih child (by simp) (by simpa using hwfc) hreachc
          refine ⟨setPair es v (.map es''), ?_, ?_, ?_, ?_⟩
          · simp [insT, hl, hins]
          · simp only [List.length_cons, wfT, Bool.and_eq_true,
              List.all_eq_true, decide_eq_true_eq]
            constructor
            · intro x hx
              rcases mem_setPair _ _ hx with hx | hx
              · exact hch x hx
              · subst hx; simpa using hwf''
            · rw [setPair_map_fst_of_mem _
                (List.mem_map.mpr ⟨(v, child), hmem, rfl⟩)]
              exact hnd
          · simp [reachT, lkp_setPair_self, hself'']
          · intro q hq
            rcases q with _ | ⟨w, _ | ⟨w', qs⟩⟩
            · rfl
            · by_cases hwv : w = v
              · subst hwv
                have hcm : ∃ esc, child = .map esc := by
                  cases child with
                  | row r => rw [wfT_row_false] at hwfc; cases hwfc
                  | map esc => exact ⟨esc, rfl⟩
                obtain ⟨esc, rfl⟩ := hcm
                simp [reachT, lkp_setPair_self, hl]
              · simp [reachT, lkp_setPair_ne es v w (Node.map es'')
                  (fun h => hwv h.symm)]
            · by_cases hwv : w = v
              · subst hwv
                have htail : (w' :: qs) ≠ (v' :: vs) := fun h => hq (by rw [h])
                simp [reachT, lkp_setPair_self, hl, hothers'' _ htail]
              · simp [reachT, lkp_setPair_ne es v w (Node.map es'')
                  (fun h => hwv h.symm)]
        | none =>
          have hwfc : wfT (vs.length + 1) (Node.map []) = true :=
            wfT_empty _ (Nat.succ_le_succ (Nat.zero_le _))
          obtain ⟨es'', hins, hwf'', hself'', hothers''⟩ :=
            ih (.map []) (by simp) (by simpa using hwfc)
              (reachT_empty (v' :: vs))
          have hvn : v ∉ es.map Prod.fst := lkp_none_iff.mp hl
          refine ⟨setPair es v (.map es''), ?_, ?_, ?_, ?_⟩
          · simp [insT, hl, hins]
          · simp only [List.length_cons, wfT, Bool.and_eq_true,
              List.all_eq_true, decide_eq_true_eq]
            constructor
            · intro x hx
              rcases mem_setPair _ _ hx with hx | hx
              · exact hch x hx
              · subst hx; simpa using hwf''
            · rw [setPair_map_fst_not_mem _ hvn]
              exact List.Nodup.append hnd (List.nodup_singleton v)
                (by intro x hx hy
                    simp only [List.mem_singleton] at hy
                    subst hy
                    exact hvn hx)
          · simp [reachT, lkp_setPair_self, hself'']
          · intro q hq
            rcases q with _ | ⟨w, _ | ⟨w', qs⟩⟩
            · rfl
            · by_cases hwv : w = v
              · subst hwv
                simp [reachT, lkp_setPair_self, hl]
              · simp [reachT, lkp_setPair_ne es v w (Node.map es'')
                  (fun h => hwv h.symm)]
            · by_cases hwv : w = v
              · subst hwv
                have htail : (w' :: qs) ≠ (v' :: vs) := fun h => hq (by rw [h])
                rw [show reachT (w :: w' :: qs)
                    (.map (setPair es w (.map es''))) =
                      reachT (w' :: qs) (.map es'') by
                  simp [reachT, lkp_setPair_self]]
                rw [hothers'' _ htail, reachT_empty]
                simp [reachT, hl]
              · simp [reachT, lkp_setPair_ne es v w (Node.map es'')
                  (fun h => hwv h.symm)]

theorem addSet_not_mem {l : List Nat} {x : Nat} (h : x ∉ l) :
    addSet l x = l ++ [x] := by
  simp [addSet, h]

theorem lkp_append_mem {α β : Type} [DecidableEq α] {l : List (α × β)}
    (l₂ : List (α × β)) {k : α} (h : k ∈ l.map Prod.fst) :
    lkp (l ++ l₂) k = lkp l k := by
  cases hl : lkp l k with
  | none => exact absurd (lkp_none_iff.mp hl) (not_not.mpr h)
  | some b => exact lkp_append_some _ hl

theorem objGet_mapOver (f : String × String → Value) :
    ∀ (colTy : List (String × String)),
      (colTy.map Prod.fst).Nodup →
      ∀ ct ∈ colTy, objGet (colTy.map fun ct' => (ct'.1, f ct')) ct.1 = f ct := by
  intro colTy
  induction colTy with
  | nil => intro _ ct hct; cases hct
  | cons ct0 rest ih =>
    intro hnd ct hct
    simp only [List.map_cons, List.nodup_cons, List.mem_map] at hnd
    obtain ⟨hn0, hnd'⟩ := hnd
    rcases List.mem_cons.mp hct with rfl | hct'
    · simp [objGet, lkp]
    · have hne : ct0.1 ≠ ct.1 := fun h =>
        hn0 ⟨ct, hct', h.symm⟩
      simp only [List.map_cons, objGet, lkp, hne, if_neg, if_false]
      exact ih hnd' ct hct'

theorem deserObj_keys (reg : Reg) (colTy : List (String × String)) (o : Obj) :
    (deserObj reg colTy o).map Prod.fst = colTy.map Prod.fst := by
  simp [deserObj, List.map_map, Function.comp]

theorem add_ok_of (t : Table) (d : Obj)
    (hkeys : t.key.find? (fun c => !hasKey d c) = none)
    {es' : List (Value × Node)}
    (hins : insT t.nextId (pth t.key (t.cols.map fun c => (c, objGet d c)))
      t.index = .ok (.map es')) :
    t.add d =
      ({ t with
          heap := t.heap ++ [(t.nextId, t.cols.map fun c => (c, objGet d c))],
          nextId := t.nextId + 1,
          all := addSet t.all t.nextId,
          added := addSet t.added t.nextId,
          index := .map es', needSort := true }, .ok t.nextId) := by
  unfold Table.add
  rw [hkeys]
  dsimp only
  rw [hins]

theorem load_fold_ok (reg : Reg) (colTy : List (String × String))
    (key : List String) (hkeyne : key ≠ [])
    (hknd : (colTy.map Prod.fst).Nodup)
    (hksub : ∀ c ∈ key, c ∈ colTy.map Prod.fst) :
    ∀ (objs : List Obj) (t : Table),
      t.colTy = colTy → t.key = key →
      wfT key.length t.index = true →
      (∀ i ∈ t.heap.map Prod.fst, i < t.nextId) →
      (∀ i ∈ t.all, i ∈ t.heap.map Prod.fst) →
      ((objs.map fun o => pth key (deserObj reg colTy o)).Nodup) →
      (∀ o ∈ objs, reachT (pth key (deserObj reg colTy o)) t.index = none) →
      ∃ t', (objs.foldlM
          (fun acc obj =>
            let st := acc.add (deserObj reg acc.colTy obj)
            match st.2 with
            | .ok _ => pure st.1
            | .error e => throw e) t : Except TErr Table) = .ok t' ∧
        t'.colTy = colTy ∧ t'.key = key ∧
        t'.all.map (heapObj t') =
          t.all.map (heapObj t) ++ objs.map (deserObj reg colTy) := by
  intro objs
  induction objs with
  | nil =>
    intro t hct hkt _ _ _ _ _
    exact ⟨t, rfl, hct, hkt, by simp⟩
  | cons o rest ih =>
    intro t hct hkt hwf hbound hallsub hnodup hreach
    -- the record being added, normalized by the Row constructor
    have hobj : (t.cols.map fun c => (c, objGet (deserObj reg colTy o) c)) =
        deserObj reg colTy o := by
      show ((t.colTy.map Prod.fst).map
        fun c => (c, objGet (deserObj reg colTy o) c)) = _
      rw [hct, List.map_map]
      show (colTy.map fun ct =>
          (ct.1, objGet (deserObj reg colTy o) ct.1)) =
        colTy.map fun ct => (ct.1, deserVal reg ct.2 (objGet o ct.1))
      refine List.map_congr_left ?_
      intro ct hcm
      have h2 : objGet (deserObj reg colTy o) ct.1 =
          deserVal reg ct.2 (objGet o ct.1) :=
        objGet_mapOver (fun ct' => deserVal reg ct'.2 (objGet o ct'.1))
          colTy hknd ct hcm
      rw [h2]
    have hfind : key.find? (fun c => !hasKey (deserObj reg colTy o) c) =
        none := by
      refine List.find?_eq_none.mpr ?_
      intro c hc
      have hck : c ∈ colTy.map Prod.fst := hksub c hc
      have hhk : hasKey (deserObj reg colTy o) c = true := by
        rw [hasKey, lkp_isSome_iff, deserObj_keys]
        exact hck
      simp [hhk]
    have hlen : (pth key (deserObj reg colTy o)).length = key.length := by
      simp [pth]
    have hpne : pth key (deserObj reg colTy o) ≠ [] := by
      cases hk : key with
      | nil => exact absurd hk hkeyne
      | cons a as => subst hk; simp [pth]
    obtain ⟨es', hins, hwf', hself', hothers'⟩ :=
      insT_insert t.nextId (pth key (deserObj reg colTy o)) t.index hpne
        (by rw [hlen]; exact hwf)
        (hreach o (List.mem_cons_self _ _))
    have haddeq := add_ok_of t (deserObj reg colTy o)
      (by rw [hkt]; exact hfind)
      (by rw [hobj, hkt]; exact hins)
    set obj₀ := deserObj reg colTy o with hobj₀
    have hnidfresh : t.nextId ∉ t.all := fun hmem =>
      absurd rfl (Nat.ne_of_lt (hbound _ (hallsub _ hmem)))
    -- the table after this add
    set tnext : Table :=
      { t with
          heap := t.heap ++ [(t.nextId, t.cols.map fun c => (c, objGet obj₀ c))],
          nextId := t.nextId + 1,
          all := addSet t.all t.nextId,
          added := addSet t.added t.nextId,
          index := .map es', needSort := true } with htnext
    have hstep : (List.foldlM
        (fun acc obj =>
          let st := acc.add (deserObj reg acc.colTy obj)
          match st.2 with
          | .ok _ => pure st.1
          | .error e => throw e) t (o :: rest) : Except TErr Table) =
        (List.foldlM
          (fun acc obj =>
            let st := acc.add (deserObj reg acc.colTy obj)
            match st.2 with
            | .ok _ => pure st.1
            | .error e => throw e) tnext rest : Except TErr Table) := by
      rw [List.foldlM_cons]
      rw [show (t.add (deserObj reg t.colTy o)) =
        (tnext, .ok t.nextId) from by rw [hct]; exact haddeq]
      rfl
    obtain ⟨t', hfold, hct', hkt', hmap'⟩ := ih tnext hct (by rw [htnext]; exact hkt)
      (by rw [htnext]; simpa [hlen] using hwf')
      (by rw [htnext]
          intro i hi
          simp only [List.map_append, List.mem_append, List.map_cons,
            List.map_nil, List.mem_singleton] at hi
          rcases hi with hi | hi
          · exact Nat.lt_succ_of_lt (hbound i hi)
          · subst hi; exact Nat.lt_succ_self _)
      (by rw [htnext]
          intro i hi
          simp only [List.map_append, List.mem_append]
          by_cases hio : i ∈ t.all
          · exact Or.inl (hallsub i hio)
          · rw [addSet_not_mem hnidfresh] at hi
            rcases List.mem_append.mp hi with hi | hi
            · exact absurd hi hio
            · simp only [List.mem_singleton] at hi
              subst hi; simp)
      (by
        simp only [List.map_cons, List.nodup_cons] at hnodup
        exact hnodup.2)
      (by
        intro o' ho'
        simp only [List.map_cons, List.nodup_cons] at hnodup
        have hne : pth key (deserObj reg colTy o') ≠
            pth key (deserObj reg colTy o) := by
          intro h
          exact hnodup.1 (h ▸ List.mem_map.mpr ⟨o', ho', rfl⟩)
        show reachT (pth key (deserObj reg colTy o')) (Node.map es') = none
        rw [hothers' _ hne]
        exact hreach o' (List.mem_cons_of_mem _ ho'))
    refine ⟨t', by rw [hstep]; exact hfold, hct', hkt', ?_⟩
    rw [hmap']
    have htall : tnext.all = t.all ++ [t.nextId] := by
      rw [htnext]; exact addSet_not_mem hnidfresh
    have hmap0 : tnext.all.map (heapObj tnext) =
        t.all.map (heapObj t) ++ [obj₀] := by
      rw [htall, List.map_append]
      congr 1
      · refine List.map_congr_left ?_
        intro i hi
        show heapObj tnext i = heapObj t i
        unfold heapObj
        rw [show tnext.heap = t.heap ++
          [(t.nextId, t.cols.map fun c => (c, objGet obj₀ c))] from rfl]
        rw [lkp_append_mem _ (hallsub i hi)]
      · simp only [List.map_cons, List.map_nil]
        congr 1
        show heapObj tnext t.nextId = obj₀
        unfold heapObj
        rw [show tnext.heap = t.heap ++
          [(t.nextId, t.cols.map fun c => (c, objGet obj₀ c))] from rfl]
        rw [lkp_none_append _ (lkp_none_iff.mpr
          (fun hmem => absurd rfl (Nat.ne_of_lt (hbound _ hmem))))]
        simp [lkp]
        exact hobj
    rw [hmap0]
    simp

/-- C6: serialize-then-load round trip.  For a consistent table whose
column types' deserialize hooks are left inverses of the serialize hooks
on the stored values — identity-typed columns satisfy this trivially —
loading the output of `serialize()` into a fresh table of the same schema
succeeds and reproduces rows equal, field by field, to the original live
rows (in `data` order, hence a permutation of the live row set). -/
theorem c6_serialize_load_roundtrip (t : Table) (reg : Reg) (hinv : Inv t)
    (hhooks : ∀ rid ∈ t.all, ∀ ct ∈ t.colTy,
      deserVal reg ct.2 (serVal reg ct.2 (objGet (heapObj t rid) ct.1)) =
        objGet (heapObj t rid) ct.1) :
    ∃ t', Table.load (mkTable t.colTy t.key) (t.serialize reg).1 reg = .ok t' ∧
      t'.all.map (heapObj t') = t.getData.1.map (heapObj t) ∧
      List.Perm (t'.all.map (heapObj t')) (t.all.map (heapObj t)) := by
  have hnd : (t.colTy.map Prod.fst).Nodup := hinv.colsNodup
  have hser : (t.serialize reg).1 =
      t.getData.1.map fun rid => serObj reg t.colTy (heapObj t rid) := by
    unfold Table.serialize
    refine List.map_congr_left ?_
    intro rid _
    unfold heapObj
    rw [getData_heap]
  have hds : ∀ rid ∈ t.all,
      deserObj reg t.colTy (serObj reg t.colTy (heapObj t rid)) =
        heapObj t rid := by
    intro rid hrid
    have h1 : ∀ ct ∈ t.colTy,
        objGet (serObj reg t.colTy (heapObj t rid)) ct.1 =
          serVal reg ct.2 (objGet (heapObj t rid) ct.1) := fun ct hct =>
      objGet_mapOver
        (fun ct' => serVal reg ct'.2 (objGet (heapObj t rid) ct'.1))
        t.colTy hnd ct hct
    have h2 : deserObj reg t.colTy (serObj reg t.colTy (heapObj t rid)) =
        t.colTy.map fun ct => (ct.1, objGet (heapObj t rid) ct.1) := by
      show t.colTy.map _ = _
      refine List.map_congr_left ?_
      intro ct hct
      show (ct.1, deserVal reg ct.2
        (objGet (serObj reg t.colTy (heapObj t rid)) ct.1)) = _
      rw [h1 ct hct, hhooks rid hrid ct hct]
    rw [h2]
    have h3 : (t.colTy.map fun ct => (ct.1, objGet (heapObj t rid) ct.1)) =
        t.cols.map fun c => (c, objGet (heapObj t rid) c) := by
      show _ = (t.colTy.map Prod.fst).map _
      rw [List.map_map]
      rfl
    rw [h3]
    exact (hinv.canon rid hrid).symm
  have hmemall : ∀ rid ∈ t.getData.1, rid ∈ t.all := fun rid h =>
    (getData_perm t).mem_iff.mp h
  have hkeylen : 1 ≤ t.key.length :=
    List.length_pos.mpr hinv.keyNe
  obtain ⟨tf, hfold, hctf, hktf, hmapf⟩ :=
    load_fold_ok reg t.colTy t.key hinv.keyNe hnd hinv.keySub
      (t.serialize reg).1 (Table.clear (mkTable t.colTy t.key)) rfl rfl
      (wfT_empty _ hkeylen)
      (by intro i hi; cases hi)
      (by intro i hi; cases hi)
      (by
        rw [hser, List.map_map]
        have heq : ((t.serialize reg).1.map
              fun o => pth t.key (deserObj reg t.colTy o)) =
            t.getData.1.map fun rid => pth t.key (heapObj t rid) := by
          rw [hser, List.map_map]
          refine List.map_congr_left ?_
          intro rid hrid
          show pth t.key (deserObj reg t.colTy
            (serObj reg t.colTy (heapObj t rid))) = _
          rw [hds rid (hmemall rid hrid)]
        rw [← List.map_map]
        rw [← hser, heq]
        exact ((getData_perm t).map
          fun rid => pth t.key (heapObj t rid)).nodup_iff.mpr hinv.pathsNodup)
      (fun o _ => reachT_empty _)
  refine ⟨tf.resetChanges, ?_, ?_, ?_⟩
  · unfold Table.load
    simp only [bind, Except.bind]
    rw [hfold]
    rfl
  · show tf.all.map (heapObj tf) = _
    rw [hmapf, hser, List.map_map,
      show (mkTable t.colTy t.key).clear.all = ([] : List Nat) from rfl]
    simp only [List.map_nil, List.nil_append]
    refine List.map_congr_left ?_
    intro rid hrid
    show deserObj reg t.colTy (serObj reg t.colTy (heapObj t rid)) = _
    exact hds rid (hmemall rid hrid)
  · show List.Perm (tf.all.map (heapObj tf)) _
    rw [hmapf, hser, List.map_map,
      show (mkTable t.colTy t.key).clear.all = ([] : List Nat) from rfl]
    simp only [List.map_nil, List.nil_append]
    have heq2 : (t.getData.1.map fun rid =>
        deserObj reg t.colTy (serObj reg t.colTy (heapObj t rid))) =
          t.getData.1.map fun rid => heapObj t rid := by
      refine List.map_congr_left ?_
      intro rid hrid
      exact hds rid (hmemall rid hrid)
    rw [show (List.map (deserObj reg t.colTy ∘ fun rid =>
          serObj reg t.colTy (heapObj t rid)) t.getData.1) =
        t.getData.1.map fun rid => heapObj t rid from heq2]
    exact (getData_perm t).map (heapObj t)

/-- C6 witness: the example table with the identity (default) registry:
serialize then load reproduces the rows. -/
theorem c6_serialize_load_roundtrip_witness :
    (∀ rid ∈ exT3.all, ∀ ct ∈ exT3.colTy,
      deserVal [] ct.2 (serVal [] ct.2 (objGet (heapObj exT3 rid) ct.1)) =
        objGet (heapObj exT3 rid) ct.1) ∧
    ∃ t', Table.load (mkTable exT3.colTy exT3.key)
        (exT3.serialize []).1 [] = .ok t' ∧
      t'.all.map (heapObj t') = exT3.getData.1.map (heapObj exT3) ∧
      List.Perm (t'.all.map (heapObj t')) (exT3.all.map (heapObj exT3)) :=
  ⟨by decide,
    c6_serialize_load_roundtrip exT3 []
      ⟨by decide, by decide, by decide, by decide, by decide, by decide,
       by decide, by decide, by decide, by decide, by decide⟩
      (by decide)⟩

/-- C9: key fields are immutable.  Across any sequence of table
operations — add, update (the row's own `set` delegates here), delete,
get, a `data` read, `resetChanges`, `clear`, and hence also `load`, which
is `clear` + `add`s + `resetChanges` — every row object's values at the
key columns stay what they were when the row was constructed, whether or
not any update's change set mentions key columns (key fields are
non-writable, so such writes throw without altering them). -/
theorem c9_key_fields_immutable (ops : List Op) :
    ∀ (t : Table), HeapWf t →
      ∀ (rid : Nat) (obj : Obj), lkp t.heap rid = some obj →
        ∃ obj', lkp (applyOps t ops).heap rid = some obj' ∧
          ∀ c ∈ t.key, objGet obj' c = objGet obj c := by
  induction ops with
  | nil => intro t _ rid obj h; exact ⟨obj, h, fun _ _ => rfl⟩
  | cons op rest ih =>
    intro t hwf rid obj h
    obtain ⟨hwf', hkey, hstep⟩ := applyOp_preserves t op hwf
    obtain ⟨obj₁, h₁, hfields₁⟩ := hstep rid obj h
    obtain ⟨obj₂, h₂, hfields₂⟩ := ih (applyOp t op) hwf' rid obj₁ h₁
    refine ⟨obj₂, h₂, fun c hc => ?_⟩
    rw [hfields₂ c (hkey.symm ▸ hc), hfields₁ c hc]

/-- C9 witness: on the example table, after an update whose change set
does mention the key column k1 (and therefore throws), a delete, an
unrelated add and a clear, row 0's key fields still hold k1=2, k2=2. -/
theorem c9_key_fields_immutable_witness :
    ∃ obj', lkp (applyOps exT3
        [.update 0 [("foo", .str "Q"), ("k1", .num 7)], .delete_ 1,
         .add [("k1", .num 5), ("k2", .num 5), ("foo", .str "w")],
         .clear]).heap 0 = some obj' ∧
      ∀ c ∈ exT3.key,
        objGet obj' c =
          objGet [("k1", .num 2), ("k2", .num 2), ("foo", .str "bar")] c :=
  c9_key_fields_immutable
    [.update 0 [("foo", .str "Q"), ("k1", .num 7)], .delete_ 1,
     .add [("k1", .num 5), ("k2", .num 5), ("foo", .str "w")], .clear]
    exT3 ⟨by decide, by decide, by decide⟩ 0
    [("k1", .num 2), ("k2", .num 2), ("foo", .str "bar")] (by decide)

/-- C4 witness: on the example table, `find` with the full key (2,2)
returns exactly the live row with those key values. -/
theorem c4_find_characterization_witness :
    (∀ c ∈ exT3.key,
      hasKey [("k1", Value.num 2), ("k2", Value.num 2)] c = true) ∧
    ∃ res, exT3.find [("k1", .num 2), ("k2", .num 2)] = .ok res ∧
      ∀ rid : Nat, res = some rid ↔
        rid ∈ exT3.all ∧
          pth exT3.key (heapObj exT3 rid) =
            pth exT3.key [("k1", .num 2), ("k2", .num 2)] :=
  ⟨by decide,
    (c4_find_characterization exT3
      ⟨by decide, by decide, by decide, by decide, by decide, by decide,
       by decide, by decide, by decide, by decide, by decide⟩
      [("k1", .num 2), ("k2", .num 2)]).1 (by decide)⟩

end MemDB
